import Mathlib

/-!
# Verification of the crucible manifest localization engine

Shallow embedding of `src/_crucible/lakefile.py`: the manifest locator,
package-name extractor, dependency rewriter (both dialects), root-manifest
composer, build invoker and orchestrator, together with proofs of the
specification's testable properties.

The TextBased rewriter in the source applies Python `re.sub` with the pattern

  require\s+(?:"[^"]*"\s*/\s+"([^"]+)"|([a-zA-Z0-9_]+))
    (?:\s+@\s+git\s+"[^"]*"|\s+from\s+git\s+"[^"]*"(?:\s+@\s+"[^"]*")?|\s+from\s+"[^"]*")?

In this pattern every greedy character class (`\s+`, `\s*`, `[^"]*`, `[^"]+`,
`[a-zA-Z0-9_]+`) is followed by a literal whose first character the class can
never match (`@`, `/`, `"`, `f`, `g`, or a required whitespace), so Python's
backtracking search is equivalent to deterministic maximal munch, which is what
the combinators below implement.  Alternatives are tried in the pattern's
order, as Python does.
-/

namespace Crucible

/-- Python's `\s` restricted to the ASCII whitespace characters
(space, tab, newline, carriage return, vertical tab, form feed);
the manifests handled here are ASCII. -/
def isWs (c : Char) : Bool :=
  c = ' ' || c = '\t' || c = '\n' || c = '\r' || c = '\x0b' || c = '\x0c'

/-- The character class `[a-zA-Z0-9_]` of the source's patterns. -/
def isIdentChar (c : Char) : Bool :=
  ('a' ≤ c && c ≤ 'z') || ('A' ≤ c && c ≤ 'Z') || ('0' ≤ c && c ≤ '9') || c = '_'

/-- Consume an exact literal, returning the remainder. -/
def eatLit : List Char → List Char → Option (List Char)
  | [], l => some l
  | _ :: _, [] => none
  | c :: cs, x :: xs => if x = c then eatLit cs xs else none

/-- Consume a single expected character. -/
def eatChar (c : Char) : List Char → Option (List Char)
  | x :: xs => if x = c then some xs else none
  | [] => none

/-- `\s+` : at least one whitespace character, maximal munch. -/
def eatWs1 : List Char → Option (List Char)
  | [] => none
  | c :: cs => if isWs c then some (cs.dropWhile isWs) else none

/-- `\s*` : any run of whitespace, maximal munch. -/
def eatWs0 (l : List Char) : List Char := l.dropWhile isWs

/-- `"[^"]*"` : a double-quoted run of non-quote characters; returns the
inner text and the remainder. -/
def eatQuoted (l : List Char) : Option (List Char × List Char) :=
  match l with
  | [] => none
  | c :: cs =>
    if c = '"' then
      match cs.dropWhile (fun x => x ≠ '"') with
      | r :: rest => if r = '"' then some (cs.takeWhile (fun x => x ≠ '"'), rest) else none
      | [] => none
    else none

/-- `[a-zA-Z0-9_]+` : a nonempty identifier, maximal munch. -/
def eatIdent1 (l : List Char) : Option (List Char × List Char) :=
  let name := l.takeWhile isIdentChar
  if name.isEmpty then none else some (name, l.dropWhile isIdentChar)

/-- Source-suffix alternative (a): `\s+@\s+git\s+"[^"]*"`. -/
def suffixA (l : List Char) : Option (List Char) := do
  let r1 ← eatWs1 l
  let r2 ← eatChar '@' r1
  let r3 ← eatWs1 r2
  let r4 ← eatLit "git".data r3
  let r5 ← eatWs1 r4
  let (_, r6) ← eatQuoted r5
  pure r6

/-- The optional revision tail of alternative (b): `\s+@\s+"[^"]*"`. -/
def suffixBOpt (l : List Char) : Option (List Char) := do
  let r1 ← eatWs1 l
  let r2 ← eatChar '@' r1
  let r3 ← eatWs1 r2
  let (_, r4) ← eatQuoted r3
  pure r4

/-- Source-suffix alternative (b): `\s+from\s+git\s+"[^"]*"(?:\s+@\s+"[^"]*")?`. -/
def suffixB (l : List Char) : Option (List Char) := do
  let r1 ← eatWs1 l
  let r2 ← eatLit "from".data r1
  let r3 ← eatWs1 r2
  let r4 ← eatLit "git".data r3
  let r5 ← eatWs1 r4
  let (_, r6) ← eatQuoted r5
  match suffixBOpt r6 with
  | some r7 => pure r7
  | none => pure r6

/-- Source-suffix alternative (c): `\s+from\s+"[^"]*"`. -/
def suffixC (l : List Char) : Option (List Char) := do
  let r1 ← eatWs1 l
  let r2 ← eatLit "from".data r1
  let r3 ← eatWs1 r2
  let (_, r4) ← eatQuoted r3
  pure r4

/-- The optional source suffix of the require pattern; alternatives are tried
in the pattern's order (a), (b), (c), and the empty suffix is taken when none
applies.  Returns the remainder after the suffix. -/
def eatSuffix (l : List Char) : List Char :=
  match suffixA l with
  | some r => r
  | none =>
    match suffixB l with
    | some r => r
    | none =>
      match suffixC l with
      | some r => r
      | none => l

/-- The scoped-name alternative `"[^"]*"\s*/\s+"([^"]+)"`; the capture is the
second (unscoped) quoted segment, which must be nonempty. -/
def eatScopedName (l : List Char) : Option (List Char × List Char) := do
  let (_, r1) ← eatQuoted l
  let r2 := eatWs0 r1
  let r3 ← eatChar '/' r2
  let r4 ← eatWs1 r3
  let (name, r5) ← eatQuoted r4
  if name.isEmpty then none else pure (name, r5)

/-- Attempt the whole require pattern at the head of `l`.  On success returns
the captured dependency name and the remainder of the text after the match.
The scoped alternative is tried before the bare-identifier one, as in the
pattern. -/
def tryMatch (l : List Char) : Option (List Char × List Char) := do
  let r1 ← eatLit "require".data l
  let r2 ← eatWs1 r1
  match eatScopedName r2 with
  | some (name, r3) => pure (name, eatSuffix r3)
  | none =>
    match eatIdent1 r2 with
    | some (name, r3) => pure (name, eatSuffix r3)
    | none => none

/-- The canonical localized clause `require {name} from "../{name}"` the
source substitutes for a registry member's clause. -/
def replClause (name : List Char) : List Char :=
  "require ".data ++ name ++ " from \"../".data ++ name ++ "\"".data

/-- The scan of `re.sub`, fueled so that it is structural (each step consumes
at least one character, so fuel `l.length` always suffices): left to right, at
each position try the pattern; on a match emit the replacement (the canonical
clause for registry members, the matched text itself otherwise) and resume
after the match, otherwise copy one character and advance. -/
def subScanF (reg : List String) : Nat → List Char → List Char
  | 0, l => l
  | _ + 1, [] => []
  | fuel + 1, c :: cs =>
    match tryMatch (c :: cs) with
    | some (name, rest) =>
      let k := (c :: cs).length - rest.length
      (if name.asString ∈ reg then replClause name else (c :: cs).take k)
        ++ subScanF reg fuel (cs.drop (k - 1))
    | none => c :: subScanF reg fuel cs

/-- The scan of `re.sub` over a whole text. -/
def subScan (reg : List String) (l : List Char) : List Char :=
  subScanF reg l.length l

/-- `modify_lean_lakefile`: rewrite the whole text once; the modified flag
compares the new content with the original. -/
def modify_lean_lakefile (reg : List String) (content : List Char) :
    List Char × Bool :=
  let out := subScan reg content
  (out, out ≠ content)

/-- A segment of the scan of `re.sub`: either a character the pattern did not
match, or a matched clause together with its captured dependency name. -/
inductive Seg
  | plain (c : Char)
  | clause (name : List Char) (text : List Char)
deriving DecidableEq, Repr

/-- How `replace_require` renders one segment: matched clauses of registry
members become the canonical local clause, all other text is emitted exactly
as found. -/
def segRender (reg : List String) : Seg → List Char
  | .plain c => [c]
  | .clause name text => if name.asString ∈ reg then replClause name else text

/-- The registry-independent segmentation the scan of `re.sub` induces on a
text (same recursion as `subScanF`, recording matches instead of rewriting
them). -/
def leanSegsF : Nat → List Char → List Seg
  | 0, l => l.map .plain
  | _ + 1, [] => []
  | fuel + 1, c :: cs =>
    match tryMatch (c :: cs) with
    | some (name, rest) =>
      let k := (c :: cs).length - rest.length
      .clause name ((c :: cs).take k) :: leanSegsF fuel (cs.drop (k - 1))
    | none => .plain c :: leanSegsF fuel cs

/-- The segmentation of a whole text. -/
def leanSegs (l : List Char) : List Seg := leanSegsF l.length l

/-- A name in identifier form: nonempty and drawn from `[a-zA-Z0-9_]`. -/
def WfName (n : List Char) : Prop := n ≠ [] ∧ ∀ c ∈ n, isIdentChar c = true

/-- Match `package\s+([a-zA-Z0-9_]+)\s+where` at the head of `l`, returning
the captured identifier. -/
def matchPackageAt (l : List Char) : Option (List Char) := do
  let r1 ← eatLit "package".data l
  let r2 ← eatWs1 r1
  let (name, r3) ← eatIdent1 r2
  let r4 ← eatWs1 r3
  let _ ← eatLit "where".data r4
  pure name

/-- `re.search` for the package declaration: the match at the leftmost
position where the pattern applies. -/
def scanPackage : List Char → Option (List Char)
  | [] => none
  | c :: cs =>
    match matchPackageAt (c :: cs) with
    | some name => some name
    | none => scanPackage cs

/-! ## The Structured (TOML) dialect

`modify_toml_lakefile` goes through the external `toml` library:
`toml.load` parses the file into plain data (comments and formatting are not
retained), and `toml.dump` re-serializes that data in the library's canonical
layout.  The model below embeds the fragment of TOML that lakefiles use:
top-level string scalars plus arrays of tables of string fields, written one
`key = "value"` per line, with `[[section]]` headers; `toml.dump` emits the
scalars first (in insertion order), then each array of tables as a sequence of
`[[name]]` blocks, each block followed by a blank line.  File content is
modelled as the list of the file's lines. -/

/-- One table of a TOML array of tables: an ordered association list of
string-valued fields (the insertion-ordered Python dict). -/
abbrev Entry := List (String × String)

/-- The parsed form of a lakefile-fragment TOML document: top-level string
scalars followed by arrays of tables (a TOML document can only declare
top-level scalars before its first section header). -/
structure TomlDoc where
  scalars : List (String × String)
  arrays : List (String × List Entry)
deriving DecidableEq, Repr

/-- Python `dict` lookup on an insertion-ordered association list. -/
def getKV : List (String × String) → String → Option String
  | [], _ => none
  | (k', v) :: e, k => if k' = k then some v else getKV e k

/-- Python `'k' in dict`. -/
def hasKV (e : List (String × String)) (k : String) : Bool :=
  (getKV e k).isSome

/-- Python `del dict[k]` (a no-op here when the key is absent; the source
only deletes keys it has just tested for). -/
def delKV : List (String × String) → String → List (String × String)
  | [], _ => []
  | (k', v) :: e, k => if k' = k then delKV e k else (k', v) :: delKV e k

/-- Python `dict[k] = v`: an existing key keeps its position, a new key is
appended at the end. -/
def setKV : List (String × String) → String → String → List (String × String)
  | [], k, v => [(k, v)]
  | (k', v') :: e, k, v => if k' = k then (k, v) :: e else (k', v') :: setKV e k v

/-- Lookup of an array of tables (`data['require']`). -/
def getArr : List (String × List Entry) → String → Option (List Entry)
  | [], _ => none
  | (k', v) :: e, k => if k' = k then some v else getArr e k

/-- In-place replacement of an array of tables. -/
def setArr : List (String × List Entry) → String → List Entry →
    List (String × List Entry)
  | [], k, v => [(k, v)]
  | (k', v') :: e, k, v => if k' = k then (k, v) :: e else (k', v') :: setArr e k v

/-- The body of `modify_toml_lakefile`'s loop for one `require` entry:
entries without a `name` field are skipped; entries whose name is not a
registry member are left fully unmodified; for registry members the
`git`/`url`/`rev`/`version`/`scope` fields are removed (each removal counts
as a modification) and `path` is set to `../{name}` if it differs (which
also counts).  Returns the new entry and whether a modification was
recorded. -/
def transformEntry (reg : List String) (e : Entry) : Entry × Bool :=
  match getKV e "name" with
  | none => (e, false)
  | some reqName =>
    if reqName ∈ reg then
      let relativePath := "../" ++ reqName
      let m1 := hasKV e "git"
      let e1 := delKV e "git"
      let m2 := m1 || hasKV e1 "url"
      let e2 := delKV e1 "url"
      let m3 := m2 || hasKV e2 "rev"
      let e3 := delKV e2 "rev"
      let m4 := m3 || hasKV e3 "version"
      let e4 := delKV e3 "version"
      let m5 := m4 || hasKV e4 "scope"
      let e5 := delKV e4 "scope"
      if getKV e5 "path" ≠ some relativePath then
        (setKV e5 "path" relativePath, true)
      else
        (e5, m5)
    else
      (e, false)

/-- The data-level transformation of `modify_toml_lakefile`: every entry of
the `require` array is processed in place; the modified flag is the
disjunction over all entries. -/
def modify_toml_data (reg : List String) (d : TomlDoc) : TomlDoc × Bool :=
  match getArr d.arrays "require" with
  | none => (d, false)
  | some entries =>
    let results := entries.map (transformEntry reg)
    ({ d with arrays := setArr d.arrays "require" (results.map Prod.fst) },
     results.any Prod.snd)

/-- Concatenation of the images of a list under a list-valued function. -/
def concatMap (f : α → List β) : List α → List β
  | [] => []
  | x :: xs => f x ++ concatMap f xs

/-- One `key = "value"` line as `toml.dump` prints it. -/
def kvLine (p : String × String) : String := p.1 ++ " = \"" ++ p.2 ++ "\""

/-- One `[[section]]` block of `toml.dump`'s output: the header, the table's
fields, then the blank line the encoder appends after every table of an
array. -/
def dumpEntryBlock (secName : String) (e : Entry) : List String :=
  ("[[" ++ secName ++ "]]") :: e.map kvLine ++ [""]

/-- `toml.dump`: top-level scalars in insertion order, then the arrays of
tables. -/
def tomlDumpLines (d : TomlDoc) : List String :=
  d.scalars.map kvLine ++
    concatMap (fun st => concatMap (dumpEntryBlock st.1) st.2) d.arrays

/-- A classified input line of the TOML subset grammar. -/
inductive TomlLine
  | blank
  | header (n : String)
  | kv (k : String) (v : String)
deriving DecidableEq, Repr

/-- Classify one line: blank and comment lines are skipped, `[[name]]` opens
a table of the array `name`, and `key = "value"` is a field.  Anything else
(which the real `toml.load` may or may not accept) is outside the modelled
fragment and makes the parse fail. -/
def classifyLine (s : String) : Option TomlLine :=
  let t := (s.data.dropWhile isWs).reverse.dropWhile isWs |>.reverse
  match t with
  | [] => some .blank
  | c :: _ =>
    if c = '#' then some .blank
    else
      match eatLit "[[".data t with
      | some r1 =>
        match eatIdent1 r1 with
        | some (n, r2) =>
          match eatLit "]]".data r2 with
          | some [] => some (.header n.asString)
          | _ => none
        | none => none
      | none =>
        match eatIdent1 t with
        | some (k, r1) =>
          match eatChar '=' (eatWs0 r1) with
          | some r2 =>
            match eatQuoted (eatWs0 r2) with
            | some (v, []) => some (.kv k.asString v.asString)
            | _ => none
          | none => none
        | none => none

/-- Parser state: completed top-level scalars and arrays, plus the currently
open table, if any. -/
structure PState where
  scalars : List (String × String)
  arrays : List (String × List Entry)
  cur : Option (String × Entry)
deriving DecidableEq, Repr

/-- Append a completed table to the array named `n` (creating the array at
the end on first occurrence, as an insertion-ordered dict does). -/
def addTable : List (String × List Entry) → String → Entry →
    List (String × List Entry)
  | [], n, t => [(n, [t])]
  | (n', ts) :: rest, n, t =>
    if n' = n then (n', ts ++ [t]) :: rest else (n', ts) :: addTable rest n t

/-- Close the currently open table, if any. -/
def flushCur (st : PState) : PState :=
  match st.cur with
  | none => st
  | some (n, t) => { scalars := st.scalars, arrays := addTable st.arrays n t, cur := none }

/-- Process one line.  Duplicate keys (top-level or within a table) make the
parse fail, as `toml.load` raises on them. -/
def stepLine (st : PState) (s : String) : Option PState :=
  match classifyLine s with
  | none => none
  | some .blank => some st
  | some (.header n) =>
    let st' := flushCur st
    some { st' with cur := some (n, []) }
  | some (.kv k v) =>
    match st.cur with
    | none =>
      if hasKV st.scalars k then none
      else some { st with scalars := st.scalars ++ [(k, v)] }
    | some (n, t) =>
      if hasKV t k then none
      else some { st with cur := some (n, t ++ [(k, v)]) }

/-- `toml.load` on the modelled fragment. -/
def tomlLoadLines (lines : List String) : Option TomlDoc :=
  match lines.foldlM stepLine { scalars := [], arrays := [], cur := none } with
  | some st =>
    let st' := flushCur st
    some { scalars := st'.scalars, arrays := st'.arrays }
  | none => none

/-- `modify_toml_lakefile` at file level: parse (a parse failure lands in the
exception handler, which reports no modification and writes nothing);
otherwise transform the data and, exactly when a modification was recorded,
replace the file content by the serializer's output. -/
def modify_toml_lakefile (reg : List String) (lines : List String) :
    List String × Bool :=
  match tomlLoadLines lines with
  | none => (lines, false)
  | some d =>
    (if (modify_toml_data reg d).2 then tomlDumpLines (modify_toml_data reg d).1
     else lines,
     (modify_toml_data reg d).2)

/-! ## Filesystem world, locator, extractor, composer, orchestrator -/

/-- The per-package slice of the filesystem the program observes: the
package's directory and the contents of its two candidate manifest files. -/
structure RepoState where
  name : String
  dirExists : Bool
  tomlFile : Option (List String)
  leanFile : Option String
deriving DecidableEq, Repr

/-- A located manifest: `lakefile.toml` (Structured) or `lakefile.lean`
(TextBased). -/
inductive LakefileHandle
  | toml (lines : List String)
  | lean (content : String)
deriving DecidableEq, Repr

/-- `find_lakefile`: `lakefile.toml` takes priority; `lakefile.lean` is the
fallback; `none` when neither file exists. -/
def find_lakefile (r : RepoState) : Option LakefileHandle :=
  match r.tomlFile with
  | some ls => some (.toml ls)
  | none =>
    match r.leanFile with
    | some c => some (.lean c)
    | none => none

/-- `extract_package_name`: for a TOML manifest, the top-level `name` field
of the parsed data (a parse error lands in the exception handler and yields
`none`); for a Lean manifest, the first match of
`package\s+([a-zA-Z0-9_]+)\s+where`.  Total: absence is returned, never
raised. -/
def extract_package_name : LakefileHandle → Option String
  | .toml ls => (tomlLoadLines ls).bind (fun d => getKV d.scalars "name")
  | .lean c => (scanPackage c.data).map List.asString

/-- Code-point lexicographic comparison of character lists — the order
Python's `sorted` uses on strings.  (Written out rather than through
`String.le` so that it evaluates by kernel reduction.) -/
def lexLe : List Char → List Char → Bool
  | [], _ => true
  | _ :: _, [] => false
  | a :: as, b :: bs => if a < b then true else if a = b then lexLe as bs else false

/-- Python string `<=`. -/
def strLe (a b : String) : Bool := lexLe a.data b.data

/-- Insert into a sorted list (`sorted` is ascending and stable). -/
def insertStr (x : String) : List String → List String
  | [] => [x]
  | y :: ys => if strLe x y then x :: y :: ys else y :: insertStr x ys

/-- Python `sorted` on strings (code-point lexicographic, ascending). -/
def sortStrings : List String → List String
  | [] => []
  | x :: xs => insertStr x (sortStrings xs)

/-- Defaults of the root manifest's base configuration. -/
def defaultRootName : String := "crucible-workspace"

/-- Default root version. -/
def defaultRootVersion : String := "0.1.0"

/-- The world lookup behind `Path(repo_name)`. -/
def findRepo (repos : List RepoState) (n : String) : Option RepoState :=
  repos.find? (fun r => r.name = n)

/-- One iteration of `create_root_lakefile`'s loop: a missing directory, a
missing lakefile, or a failed name extraction each skip the package (with a
warning); otherwise the entry `{name: packageName, path: "./{dirName}"}` is
produced. -/
def resolveRequire (repos : List RepoState) (n : String) : Option Entry :=
  match findRepo repos n with
  | none => none
  | some r =>
    if r.dirExists then
      match find_lakefile r with
      | none => none
      | some h =>
        match extract_package_name h with
        | none => none
        | some pkg => some [("name", pkg), ("path", "./" ++ n)]
    else none

/-- The `require` list of the composed root manifest: the registry names are
iterated in `sorted` order and the resolvable ones are collected. -/
def rootRequires (repos : List RepoState) : List Entry :=
  (sortStrings (repos.map (fun r => r.name))).filterMap (resolveRequire repos)

/-- `create_root_lakefile`: base config with default `name`/`version`,
overridden by the fields of an existing root manifest when it exists and
parses; the `require` array is recomputed from scratch. -/
def create_root_lakefile (repos : List RepoState) (existingRoot : Option (List String)) :
    TomlDoc :=
  let existing : Option TomlDoc :=
    match existingRoot with
    | some lines => tomlLoadLines lines
    | none => none
  let rootName :=
    match existing.bind (fun d => getKV d.scalars "name") with
    | some n => n
    | none => defaultRootName
  let rootVersion :=
    match existing.bind (fun d => getKV d.scalars "version") with
    | some v => v
    | none => defaultRootVersion
  { scalars := [("name", rootName), ("version", rootVersion)],
    arrays := [("require", rootRequires repos)] }

/-- The observable outcome of one `lake update` subprocess: an exit code, a
`subprocess.TimeoutExpired`, or any other exception. -/
inductive CmdResult
  | exited (code : Int)
  | timedOut
  | errored
deriving DecidableEq, Repr

/-- The timeout `run_lake_update` passes to `subprocess.run`, in seconds. -/
def lakeUpdateTimeoutSeconds : Nat := 60

/-- `run_lake_update`: success exactly on exit code zero; a non-zero exit,
a timeout, and any other exception are all caught and reported as `false` —
the function never propagates an exception. -/
def run_lake_update : CmdResult → Bool
  | .exited code => code == 0
  | .timedOut => false
  | .errored => false

/-- `modify_lean_lakefile` wrapped for dispatch by file name. -/
def modify_lakefile (reg : List String) : LakefileHandle → Bool
  | .toml ls => (modify_toml_lakefile reg ls).2
  | .lean c => (modify_lean_lakefile reg c.data).2

/-- What `main` reports for one repository. -/
inductive RepoOutcome
  | dirMissing
  | noLakefile
  | processed (modified : Bool) (lakeOk : Option Bool)
deriving DecidableEq, Repr

/-- One iteration of `main`'s loop: skip a missing directory, skip a missing
lakefile, otherwise rewrite and — only when modified — run `lake update` in
the repository. -/
def processRepo (reg : List String) (lakeRes : CmdResult) (r : RepoState) : RepoOutcome :=
  if r.dirExists then
    match find_lakefile r with
    | none => .noLakefile
    | some h =>
      let m := modify_lakefile reg h
      .processed m (if m then some (run_lake_update lakeRes) else none)
  else .dirMissing

/-- The on-disk effect of one iteration of `main`'s loop on a repository. -/
def rewriteRepo (reg : List String) (r : RepoState) : RepoState :=
  if r.dirExists then
    match r.tomlFile with
    | some ls => { r with tomlFile := some (modify_toml_lakefile reg ls).1 }
    | none =>
      match r.leanFile with
      | some c => { r with leanFile := some (subScan reg c.data).asString }
      | none => r
  else r

/-- Whether an outcome counts towards `total_modified`. -/
def countsModified : RepoOutcome → Bool
  | .processed true _ => true
  | _ => false

/-- The summary `main` prints. -/
structure MainSummary where
  outcomes : List RepoOutcome
  totalModified : Nat
  rootConfig : TomlDoc
  rootUpdateSuccess : Bool
deriving DecidableEq, Repr

/-- `addTable` folded over a list of tables of one section name. -/
def addTables (a : List (String × List Entry)) (n : String) (ts : List Entry) :
    List (String × List Entry) :=
  ts.foldl (fun acc t => addTable acc n t) a

/-- A key in bare-identifier form, as the modelled TOML fragment writes it. -/
def WfKey (s : String) : Prop := s.data ≠ [] ∧ ∀ c ∈ s.data, isIdentChar c = true

/-- A value the modelled serializer can emit into a quoted string and the
parser read back: it contains no double quote. -/
def WfVal (s : String) : Prop := ∀ c ∈ s.data, c ≠ '"'

/-- Well-formed table: distinct bare keys, quote-free values. -/
def WfEntry (e : Entry) : Prop :=
  (e.map Prod.fst).Nodup ∧ ∀ p ∈ e, WfKey p.1 ∧ WfVal p.2

/-- Well-formed document of the modelled fragment (the image of the parser):
distinct well-formed keys throughout and nonempty arrays of tables. -/
def WfDoc (d : TomlDoc) : Prop :=
  (d.scalars.map Prod.fst).Nodup ∧ (∀ p ∈ d.scalars, WfKey p.1 ∧ WfVal p.2) ∧
    (d.arrays.map Prod.fst).Nodup ∧
    ∀ a ∈ d.arrays, WfKey a.1 ∧ a.2 ≠ [] ∧ ∀ e ∈ a.2, WfEntry e

/-- The parser-state invariant: every completed and in-progress component of
the state is well-formed. -/
def WfPState (st : PState) : Prop :=
  (st.scalars.map Prod.fst).Nodup ∧ (∀ p ∈ st.scalars, WfKey p.1 ∧ WfVal p.2) ∧
    (st.arrays.map Prod.fst).Nodup ∧
    (∀ a ∈ st.arrays, WfKey a.1 ∧ a.2 ≠ [] ∧ ∀ e ∈ a.2, WfEntry e) ∧
    ∀ n cur, st.cur = some (n, cur) → WfKey n ∧ (cur.map Prod.fst).Nodup ∧
      ∀ p ∈ cur, WfKey p.1 ∧ WfVal p.2

/-- Follows the spec's words, for comparison with the source's behavior: a
"modified" determination for the Structured dialect "based on comparing
serialized output to original input content". -/
def specModifiedByTextComparison (reg : List String) (lines : List String) : Bool :=
  match tomlLoadLines lines with
  | none => false
  | some d => tomlDumpLines (modify_toml_data reg d).1 != lines

/-- `main`: process every repository in registry order, then — regardless of
the per-repository outcomes and of every `lake update` result — compose the
root lakefile from the rewritten world and run the final root `lake update`,
whose result only feeds the summary. -/
def main_run (repos : List RepoState) (existingRoot : Option (List String))
    (lakeRes : String → CmdResult) (rootLakeRes : CmdResult) : MainSummary :=
  let reg := repos.map (fun r => r.name)
  let outcomes := repos.map (fun r => processRepo reg (lakeRes r.name) r)
  { outcomes := outcomes,
    totalModified := (outcomes.filter countsModified).length,
    rootConfig := create_root_lakefile (repos.map (rewriteRepo reg)) existingRoot,
    rootUpdateSuccess := run_lake_update rootLakeRes }

/-- Follows the spec's words, for comparison with the source's behavior: the
root `require` list collected "for each name, in the registry's order". -/
def specRootRequiresRegistryOrder (repos : List RepoState) : List Entry :=
  (repos.map (fun r => r.name)).filterMap (resolveRequire repos)

/-! ## Helper lemmas: lists and character classes -/

theorem takeWhile_sat_append {α : Type} (p : α → Bool) :
    ∀ (xs rest : List α), (∀ x ∈ xs, p x = true) →
      (∀ y ∈ rest.head?, p y = false) →
      (xs ++ rest).takeWhile p = xs ∧ (xs ++ rest).dropWhile p = rest := by
  intro xs
  induction xs with
  | nil =>
    intro rest _ hrest
    cases rest with
    | nil => exact ⟨rfl, rfl⟩
    | cons r rs =>
      have hr := hrest r rfl
      exact ⟨by simp [List.takeWhile_cons, hr], by simp [List.dropWhile_cons, hr]⟩
  | cons x xs ih =>
    intro rest hxs hrest
    have hx : p x = true := hxs x (by simp)
    have h := ih rest (fun a ha => hxs a (by simp [ha])) hrest
    exact ⟨by simp [List.takeWhile_cons, hx, h.1], by simp [List.dropWhile_cons, hx, h.2]⟩

theorem eatLit_append (pre : List Char) : ∀ rest, eatLit pre (pre ++ rest) = some rest := by
  induction pre with
  | nil => intro rest; rfl
  | cons c cs ih => intro rest; simp [eatLit, ih]

theorem ws_eq_false_of_ident {c : Char} (h : isIdentChar c = true) : isWs c = false := by
  by_contra hw
  rw [Bool.not_eq_false] at hw
  simp only [isWs, Bool.or_eq_true, decide_eq_true_eq] at hw
  rcases hw with ((((rfl | rfl) | rfl) | rfl) | rfl) | rfl <;> exact absurd h (by decide)

theorem ne_of_ident {c q : Char} (h : isIdentChar c = true)
    (hq : isIdentChar q = false) : c ≠ q := by
  rintro rfl
  rw [h] at hq
  exact Bool.noConfusion hq

/-! ## The scan of the TextBased rewriter -/

theorem subScanF_congr (reg : List String) :
    ∀ (f₁ : Nat) (l : List Char) (f₂ : Nat), l.length ≤ f₁ → l.length ≤ f₂ →
      subScanF reg f₁ l = subScanF reg f₂ l := by
  intro f₁
  induction f₁ with
  | zero =>
    intro l f₂ h₁ _
    have hl : l = [] := by
      cases l with
      | nil => rfl
      | cons c cs => simp at h₁
    subst hl
    cases f₂ <;> rfl
  | succ f ih =>
    intro l f₂ h₁ h₂
    cases l with
    | nil => cases f₂ <;> rfl
    | cons c cs =>
      cases f₂ with
      | zero => simp at h₂
      | succ f₂ =>
        have hcs : cs.length ≤ f := by simpa using h₁
        have hcs₂ : cs.length ≤ f₂ := by simpa using h₂
        simp only [subScanF]
        cases htm : tryMatch (c :: cs) with
        | none => rw [ih cs f₂ hcs hcs₂]
        | some nr =>
          obtain ⟨name, rest⟩ := nr
          have hd : ∀ m, (cs.drop m).length ≤ f := by
            intro m
            simp only [List.length_drop]
            omega
          have hd₂ : ∀ m, (cs.drop m).length ≤ f₂ := by
            intro m
            simp only [List.length_drop]
            omega
          simp only [ih _ f₂ (hd _) (hd₂ _)]

theorem subScan_nomatch {reg : List String} {c : Char} {cs : List Char}
    (h : tryMatch (c :: cs) = none) : subScan reg (c :: cs) = c :: subScan reg cs := by
  unfold subScan
  simp only [List.length_cons, subScanF, h]

theorem subScan_match {reg : List String} {c : Char} {cs : List Char}
    {name rest : List Char} (h : tryMatch (c :: cs) = some (name, rest)) :
    subScan reg (c :: cs) =
      (if name.asString ∈ reg then replClause name
        else (c :: cs).take ((c :: cs).length - rest.length))
        ++ subScan reg (cs.drop ((c :: cs).length - rest.length - 1)) := by
  unfold subScan
  simp only [List.length_cons, subScanF, h]
  congr 1
  exact subScanF_congr reg cs.length _ _
    (by simp only [List.length_drop]; omega) le_rfl

theorem concatMap_plain (reg : List String) :
    ∀ l : List Char, concatMap (segRender reg) (l.map .plain) = l := by
  intro l
  induction l with
  | nil => rfl
  | cons c cs ih => simp [concatMap, segRender, ih]

theorem subScanF_eq_segs (reg : List String) :
    ∀ (f : Nat) (l : List Char),
      subScanF reg f l = concatMap (segRender reg) (leanSegsF f l) := by
  intro f
  induction f with
  | zero => intro l; rw [subScanF, leanSegsF, concatMap_plain]
  | succ f ih =>
    intro l
    cases l with
    | nil => rfl
    | cons c cs =>
      simp only [subScanF, leanSegsF]
      cases htm : tryMatch (c :: cs) with
      | none => simp [concatMap, segRender, ih]
      | some nr =>
        obtain ⟨name, rest⟩ := nr
        simp [concatMap, segRender, ih]

/-- The rewritten text is the concatenation of the rendered segments:
matched clauses of registry members are replaced by the canonical local
clause, everything else is emitted exactly as found. -/
theorem subScan_eq_segs (reg : List String) (l : List Char) :
    subScan reg l = concatMap (segRender reg) (leanSegs l) :=
  subScanF_eq_segs reg l.length l

theorem dropWhile_cons_false {p : Char → Bool} {c : Char} {l : List Char}
    (h : p c = false) : (c :: l).dropWhile p = c :: l := by
  simp [List.dropWhile_cons, h]

/-- The require pattern matches at a text of the shape
`require {identifier}{tail}` (with `tail` not starting with an identifier
character), capturing the identifier and proceeding into the optional
source suffix on `tail`. -/
theorem tryMatch_req (n tail : List Char) (hn : WfName n)
    (htail : ∀ y ∈ tail.head?, isIdentChar y = false) :
    tryMatch ("require ".data ++ (n ++ tail)) = some (n, eatSuffix tail) := by
  obtain ⟨hne, hid⟩ := hn
  obtain ⟨h0, n', rfl⟩ : ∃ h0 n', n = h0 :: n' := by
    cases n with
    | nil => exact absurd rfl hne
    | cons a b => exact ⟨a, b, rfl⟩
  have hh : isIdentChar h0 = true := hid h0 (by simp)
  have hw : isWs h0 = false := ws_eq_false_of_ident hh
  have hquot : h0 ≠ '"' := ne_of_ident hh (by decide)
  have hsplit : "require ".data = "require".data ++ [' '] := by decide
  rw [hsplit, List.append_assoc, List.singleton_append]
  have hws : eatWs1 (' ' :: h0 :: (n' ++ tail)) = some (h0 :: (n' ++ tail)) := by
    simp only [eatWs1, show isWs ' ' = true from by decide, if_true,
      dropWhile_cons_false hw]
  have hsc : eatScopedName (h0 :: (n' ++ tail)) = none := by
    simp [eatScopedName, eatQuoted, if_neg hquot]
  have hident : eatIdent1 (h0 :: (n' ++ tail)) = some (h0 :: n', tail) := by
    have hsat := takeWhile_sat_append isIdentChar (h0 :: n') tail hid
      (fun y hy => htail y hy)
    simp only [List.cons_append] at hsat
    simp only [eatIdent1, List.cons_append, hsat.1, hsat.2]
    rfl
  unfold tryMatch
  rw [eatLit_append]
  simp [hws, hsc, hident]

/-- On the tail of an already-canonical clause, `from "../{name}"` is
consumed by suffix alternative (c) — (a) and (b) fail — leaving exactly the
text after the clause. -/
theorem eatSuffix_canonical (n t : List Char) (hq : ∀ c ∈ n, c ≠ '"') :
    eatSuffix (" from \"../".data ++ (n ++ ('"' :: t))) = t := by
  have hsat := takeWhile_sat_append (fun x => x ≠ '"') n ('"' :: t)
    (by intro x hx; simpa using hq x hx)
    (by
      intro y hy
      simp only [List.head?_cons, Option.mem_def, Option.some.injEq] at hy
      subst hy
      decide)
  simp only [ne_eq, decide_not] at hsat
  have hshape : " from \"../".data ++ (n ++ ('"' :: t)) =
      ' ' :: 'f' :: 'r' :: 'o' :: 'm' :: ' ' :: '"' :: '.' :: '.' :: '/' ::
        (n ++ '"' :: t) := by
    have h0 : " from \"../".data = [' ', 'f', 'r', 'o', 'm', ' ', '"', '.', '.', '/'] := by
      decide
    simp [h0]
  rw [hshape]
  have hfrom : "from".data = ['f', 'r', 'o', 'm'] := by decide
  have hs1 : eatWs1 (' ' :: 'f' :: 'r' :: 'o' :: 'm' :: ' ' :: '"' :: '.' :: '.' :: '/' ::
      (n ++ '"' :: t)) =
      some ('f' :: 'r' :: 'o' :: 'm' :: ' ' :: '"' :: '.' :: '.' :: '/' ::
        (n ++ '"' :: t)) := by
    simp [eatWs1, List.dropWhile_cons, isWs]
  have hs2 : eatWs1 (' ' :: '"' :: '.' :: '.' :: '/' :: (n ++ '"' :: t)) =
      some ('"' :: '.' :: '.' :: '/' :: (n ++ '"' :: t)) := by
    simp [eatWs1, List.dropWhile_cons, isWs]
  have hA : suffixA (' ' :: 'f' :: 'r' :: 'o' :: 'm' :: ' ' :: '"' :: '.' :: '.' :: '/' ::
      (n ++ '"' :: t)) = none := by
    simp [suffixA, hs1, eatChar]
  have hgit : "git".data = ['g', 'i', 't'] := by decide
  have hB : suffixB (' ' :: 'f' :: 'r' :: 'o' :: 'm' :: ' ' :: '"' :: '.' :: '.' :: '/' ::
      (n ++ '"' :: t)) = none := by
    simp [suffixB, hs1, hfrom, hgit, eatLit, hs2]
  have hquoted : eatQuoted ('"' :: '.' :: '.' :: '/' :: (n ++ '"' :: t)) =
      some ('.' :: '.' :: '/' :: n, t) := by
    simp [eatQuoted, hsat.1, hsat.2]
  have hC : suffixC (' ' :: 'f' :: 'r' :: 'o' :: 'm' :: ' ' :: '"' :: '.' :: '.' :: '/' ::
      (n ++ '"' :: t)) = some t := by
    simp [suffixC, hs1, hfrom, eatLit, hs2, hquoted]
  simp [eatSuffix, hA, hB, hC]

/-- An already-canonical clause `require {name} from "../{name}"`, however
followed, re-matches as exactly itself with the same captured name. -/
theorem tryMatch_replClause (n t : List Char) (hn : WfName n) :
    tryMatch (replClause n ++ t) = some (n, t) := by
  have hq : ∀ c ∈ n, c ≠ '"' := fun c hc => ne_of_ident (hn.2 c hc) (by decide)
  have hqd : "\"".data = ['"'] := by decide
  have hshape : replClause n ++ t =
      "require ".data ++ (n ++ (" from \"../".data ++ (n ++ ('"' :: t)))) := by
    simp [replClause, hqd, List.append_assoc]
  have htail : ∀ y ∈ (" from \"../".data ++ (n ++ ('"' :: t))).head?,
      isIdentChar y = false := by
    intro y hy
    rw [show " from \"../".data = ' ' :: "from \"../".data from by decide] at hy
    simp only [List.cons_append, List.head?_cons, Option.mem_def, Option.some.injEq] at hy
    subst hy
    decide
  rw [hshape, tryMatch_req _ _ hn htail, eatSuffix_canonical n t hq]

theorem subScan_match' {reg : List String} {l name rest : List Char}
    (h : tryMatch l = some (name, rest)) (hlen : rest.length < l.length) :
    subScan reg l =
      (if name.asString ∈ reg then replClause name else l.take (l.length - rest.length))
        ++ subScan reg (l.drop (l.length - rest.length)) := by
  cases l with
  | nil => simp at hlen
  | cons c cs =>
    rw [subScan_match h]
    have hk : (c :: cs).length - rest.length = ((c :: cs).length - rest.length - 1) + 1 := by
      simp only [List.length_cons] at hlen ⊢
      omega
    rw [hk, List.drop_succ_cons]
    simp

/-- The scan leaves a leading canonical clause of a registry member in place
and continues after it. -/
theorem subScan_replClause (reg : List String) (n t : List Char) (hn : WfName n)
    (hmem : n.asString ∈ reg) :
    subScan reg (replClause n ++ t) = replClause n ++ subScan reg t := by
  have h := tryMatch_replClause n t hn
  have hlen : t.length < (replClause n ++ t).length := by
    simp [replClause]
    omega
  rw [subScan_match' h hlen]
  have hk : (replClause n ++ t).length - t.length = (replClause n).length := by
    simp
  rw [hk, if_pos hmem, List.drop_left]

/-- A bare `require {identifier}` clause with no source suffix at all is
matched by the pattern, capturing the identifier. -/
theorem tryMatch_bare (n : List Char) (hn : WfName n) :
    tryMatch ("require ".data ++ n) = some (n, []) := by
  have h := tryMatch_req n [] hn (by intro y hy; simp at hy)
  rw [List.append_nil] at h
  rw [h]
  simp [show eatSuffix [] = [] from by decide]

/-- A text that is exactly a bare `require {identifier}` clause of a registry
member is rewritten to the canonical local clause. -/
theorem subScan_bare (reg : List String) (n : List Char) (hn : WfName n)
    (hmem : n.asString ∈ reg) :
    subScan reg ("require ".data ++ n) = replClause n := by
  have h := tryMatch_bare n hn
  have hlen : ([] : List Char).length < ("require ".data ++ n).length := by simp
  rw [subScan_match' h hlen]
  simp only [List.length_nil, Nat.sub_zero, if_pos hmem, List.drop_length]
  simp [subScan, subScanF]

/-! ## Association lists (Python dicts) -/

theorem getKV_delKV (e : List (String × String)) (k k' : String) :
    getKV (delKV e k') k = if k = k' then none else getKV e k := by
  induction e with
  | nil => simp [delKV, getKV]
  | cons p e ih =>
    obtain ⟨q, v⟩ := p
    by_cases hq : q = k'
    · subst hq
      by_cases hk : k = q
      · subst hk
        simp [delKV, getKV, ih]
      · simp [delKV, getKV, ih, hk, Ne.symm hk]
    · by_cases hk : q = k
      · have hkk : ¬ k = k' := fun h => hq (hk.trans h)
        simp [delKV, getKV, hq, hk, hkk]
      · simp [delKV, getKV, hq, hk, ih]

theorem getKV_setKV (e : List (String × String)) (k k' v : String) :
    getKV (setKV e k' v) k = if k = k' then some v else getKV e k := by
  induction e with
  | nil =>
    by_cases hk : k = k'
    · simp [setKV, getKV, hk]
    · simp [setKV, getKV, hk, Ne.symm hk]
  | cons p e ih =>
    obtain ⟨q, w⟩ := p
    by_cases hq : q = k'
    · subst hq
      by_cases hk : k = q
      · subst hk
        simp [setKV, getKV]
      · simp [setKV, getKV, hk, Ne.symm hk]
    · by_cases hk : q = k
      · have hkk : ¬ k = k' := fun h => hq (hk.trans h)
        simp [setKV, getKV, hq, hk, hkk]
      · simp [setKV, getKV, hq, hk, ih]

theorem hasKV_eq_false {e : List (String × String)} {k : String} :
    hasKV e k = false ↔ getKV e k = none := by
  unfold hasKV
  cases h : getKV e k <;> simp

theorem delKV_of_not_has {e : List (String × String)} {k : String}
    (h : getKV e k = none) : delKV e k = e := by
  induction e with
  | nil => rfl
  | cons p e ih =>
    obtain ⟨q, v⟩ := p
    by_cases hq : q = k
    · subst hq
      simp [getKV] at h
    · simp only [getKV, if_neg hq] at h
      simp [delKV, hq, ih h]

theorem getArr_setArr_self (a : List (String × List Entry)) (k : String) (v : List Entry) :
    getArr (setArr a k v) k = some v := by
  induction a with
  | nil => simp [setArr, getArr]
  | cons p a ih =>
    obtain ⟨q, w⟩ := p
    by_cases hq : q = k
    · subst hq
      simp [setArr, getArr]
    · simp [setArr, getArr, hq, ih]

theorem setArr_setArr (a : List (String × List Entry)) (k : String) (v w : List Entry) :
    setArr (setArr a k v) k w = setArr a k w := by
  induction a with
  | nil => simp [setArr]
  | cons p a ih =>
    obtain ⟨q, u⟩ := p
    by_cases hq : q = k
    · subst hq
      simp [setArr]
    · simp [setArr, hq, ih]

/-! ## The Structured rewrite strategy -/

/-- Localization correctness of the Structured strategy at entry level: a
registry member's entry loses every remote-source field and gains the
canonical relative path, while keeping its name. -/
theorem transformEntry_member (reg : List String) (e : Entry) (n : String)
    (hname : getKV e "name" = some n) (hmem : n ∈ reg) :
    getKV (transformEntry reg e).1 "git" = none ∧
      getKV (transformEntry reg e).1 "url" = none ∧
      getKV (transformEntry reg e).1 "rev" = none ∧
      getKV (transformEntry reg e).1 "version" = none ∧
      getKV (transformEntry reg e).1 "scope" = none ∧
      getKV (transformEntry reg e).1 "path" = some ("../" ++ n) ∧
      getKV (transformEntry reg e).1 "name" = some n := by
  simp only [transformEntry, hname, if_pos hmem]
  by_cases hp : getKV (delKV (delKV (delKV (delKV (delKV e "git") "url") "rev")
      "version") "scope") "path" = some ("../" ++ n)
  · rw [if_neg (by simpa using hp)]
    refine ⟨?_, ?_, ?_, ?_, ?_, ?_, ?_⟩ <;>
      simp [getKV_delKV, hp, hname]
  · rw [if_pos (by simpa using hp)]
    refine ⟨?_, ?_, ?_, ?_, ?_, ?_, ?_⟩ <;>
      simp [getKV_setKV, getKV_delKV, hname]

/-- Frame property of the Structured strategy at entry level: an entry whose
name is absent or not a registry member is returned fully unmodified, with no
modification recorded. -/
theorem transformEntry_frame (reg : List String) (e : Entry)
    (h : ∀ n, getKV e "name" = some n → n ∉ reg) :
    transformEntry reg e = (e, false) := by
  cases hname : getKV e "name" with
  | none => simp only [transformEntry, hname]
  | some n => simp only [transformEntry, hname, if_neg (h n hname)]

/-- An entry that is already in canonical localized form is left unchanged
with no modification recorded. -/
theorem transformEntry_canonical (reg : List String) (f : Entry) (n : String)
    (hname : getKV f "name" = some n) (hmem : n ∈ reg)
    (hgit : getKV f "git" = none) (hurl : getKV f "url" = none)
    (hrev : getKV f "rev" = none) (hver : getKV f "version" = none)
    (hscope : getKV f "scope" = none)
    (hpath : getKV f "path" = some ("../" ++ n)) :
    transformEntry reg f = (f, false) := by
  simp only [transformEntry, hname, if_pos hmem]
  rw [delKV_of_not_has hgit, delKV_of_not_has hurl, delKV_of_not_has hrev,
    delKV_of_not_has hver, delKV_of_not_has hscope]
  rw [if_neg (by simp [hpath])]
  simp [hasKV, hgit, hurl, hrev, hver, hscope]

/-- Idempotence of the Structured strategy at entry level: re-processing an
already-processed entry changes nothing and records no modification. -/
theorem transformEntry_idem (reg : List String) (e : Entry) :
    transformEntry reg (transformEntry reg e).1 = ((transformEntry reg e).1, false) := by
  cases hname : getKV e "name" with
  | none =>
    have h1 : transformEntry reg e = (e, false) := by
      simp only [transformEntry, hname]
    rw [h1]
    exact h1
  | some n =>
    by_cases hmem : n ∈ reg
    · obtain ⟨hgit, hurl, hrev, hver, hscope, hpath, hname'⟩ :=
        transformEntry_member reg e n hname hmem
      exact transformEntry_canonical reg _ n hname' hmem hgit hurl hrev hver hscope hpath
    · have h1 : transformEntry reg e = (e, false) := by
        simp only [transformEntry, hname, if_neg hmem]
      rw [h1]
      exact h1

/-- Idempotence of the Structured strategy at document level. -/
theorem modify_toml_data_idem (reg : List String) (d : TomlDoc) :
    modify_toml_data reg (modify_toml_data reg d).1 = ((modify_toml_data reg d).1, false) := by
  cases harr : getArr d.arrays "require" with
  | none =>
    have h1 : modify_toml_data reg d = (d, false) := by
      unfold modify_toml_data
      rw [harr]
    rw [h1]
    unfold modify_toml_data
    rw [harr]
  | some entries =>
    have h1 : (modify_toml_data reg d).1 =
        { d with arrays :=
            setArr d.arrays "require" ((entries.map (transformEntry reg)).map Prod.fst) } := by
      unfold modify_toml_data
      rw [harr]
    rw [h1]
    unfold modify_toml_data
    simp only [getArr_setArr_self]
    have hmapfst : (((entries.map (transformEntry reg)).map Prod.fst).map
        (transformEntry reg)).map Prod.fst =
        (entries.map (transformEntry reg)).map Prod.fst := by
      simp only [List.map_map]
      apply List.map_congr_left
      intro e _
      simp only [Function.comp_apply]
      rw [transformEntry_idem]
    have hmapsnd : (((entries.map (transformEntry reg)).map Prod.fst).map
        (transformEntry reg)).any Prod.snd = false := by
      simp only [List.any_eq_false]
      intro p hp
      simp only [List.map_map, List.mem_map] at hp
      obtain ⟨e, _, rfl⟩ := hp
      simp only [Function.comp_apply]
      rw [transformEntry_idem]
      simp
    rw [hmapfst, hmapsnd]
    simp [setArr_setArr]

/-! ## TOML round trip: line classification -/

theorem asString_data (s : String) : s.data.asString = s := by
  cases s
  rfl

theorem stripWs_id (l : List Char)
    (h1 : ∀ y ∈ l.head?, isWs y = false)
    (h2 : ∀ y ∈ l.getLast?, isWs y = false) :
    ((l.dropWhile isWs).reverse.dropWhile isWs).reverse = l := by
  have hd : l.dropWhile isWs = l := by
    cases l with
    | nil => rfl
    | cons c cs => exact dropWhile_cons_false (h1 c rfl)
  rw [hd]
  have hr : l.reverse.dropWhile isWs = l.reverse := by
    cases hrev : l.reverse with
    | nil => rfl
    | cons c cs =>
      refine dropWhile_cons_false (h2 c ?_)
      rw [Option.mem_def, ← List.head?_reverse, hrev]
      rfl
  rw [hr, List.reverse_reverse]

theorem classify_blank : classifyLine "" = some .blank := by decide

theorem stepLine_blank (st : PState) : stepLine st "" = some st := rfl

theorem classify_kvLine (k v : String) (hk : WfKey k) (hv : WfVal v) :
    classifyLine (kvLine (k, v)) = some (.kv k v) := by
  obtain ⟨hkne, hkid⟩ := hk
  obtain ⟨kh, kt, hkdata⟩ : ∃ kh kt, k.data = kh :: kt := by
    cases hd : k.data with
    | nil => exact absurd hd hkne
    | cons a b => exact ⟨a, b, rfl⟩
  have hkh : isIdentChar kh = true := hkid kh (by rw [hkdata]; simp)
  have hdata : (kvLine (k, v)).data =
      k.data ++ (' ' :: '=' :: ' ' :: '"' :: (v.data ++ ['"'])) := by
    simp only [kvLine, String.data_append,
      show " = \"".data = [' ', '=', ' ', '"'] from by decide,
      show "\"".data = ['"'] from by decide]
    simp [List.append_assoc]
  have hstrip : (((kvLine (k, v)).data.dropWhile isWs).reverse.dropWhile isWs).reverse =
      k.data ++ (' ' :: '=' :: ' ' :: '"' :: (v.data ++ ['"'])) := by
    rw [hdata]
    refine stripWs_id _ ?_ ?_
    · intro y hy
      rw [hkdata] at hy
      simp only [List.cons_append, List.head?_cons, Option.mem_def,
        Option.some.injEq] at hy
      subst hy
      exact ws_eq_false_of_ident hkh
    · intro y hy
      rw [show k.data ++ (' ' :: '=' :: ' ' :: '"' :: (v.data ++ ['"'])) =
        (k.data ++ (' ' :: '=' :: ' ' :: '"' :: v.data)) ++ ['"'] from by
          simp [List.append_assoc], List.getLast?_concat, Option.mem_def,
        Option.some.injEq] at hy
      subst hy
      decide
  have hsat := takeWhile_sat_append isIdentChar k.data
    (' ' :: '=' :: ' ' :: '"' :: (v.data ++ ['"'])) hkid
    (by
      intro y hy
      simp only [List.head?_cons, Option.mem_def, Option.some.injEq] at hy
      subst hy
      decide)
  have hident : eatIdent1 (k.data ++ (' ' :: '=' :: ' ' :: '"' :: (v.data ++ ['"']))) =
      some (k.data, ' ' :: '=' :: ' ' :: '"' :: (v.data ++ ['"'])) := by
    simp only [eatIdent1, hsat.1, hsat.2]
    rw [if_neg (by simpa [List.isEmpty_iff] using hkne)]
  have hqsat := takeWhile_sat_append (fun x => x ≠ '"') v.data ['"']
    (fun x hx => by simpa using hv x hx)
    (by
      intro y hy
      simp only [List.head?_cons, Option.mem_def, Option.some.injEq] at hy
      subst hy
      decide)
  simp only [ne_eq, decide_not] at hqsat
  have hquoted : eatQuoted ('"' :: (v.data ++ ['"'])) = some (v.data, []) := by
    simp [eatQuoted, hqsat.1, hqsat.2]
  have hlitff : eatLit "[[".data (k.data ++ (' ' :: '=' :: ' ' :: '"' :: (v.data ++ ['"']))) =
      none := by
    rw [hkdata, show "[[".data = ['[', '['] from by decide]
    simp only [List.cons_append, eatLit]
    rw [if_neg (ne_of_ident hkh (by decide))]
  have hws1 : eatWs0 (' ' :: '=' :: ' ' :: '"' :: (v.data ++ ['"'])) =
      '=' :: ' ' :: '"' :: (v.data ++ ['"']) := by
    simp [eatWs0, List.dropWhile_cons, isWs]
  have hws2 : eatWs0 (' ' :: '"' :: (v.data ++ ['"'])) = '"' :: (v.data ++ ['"']) := by
    simp [eatWs0, List.dropWhile_cons, isWs]
  unfold classifyLine
  rw [hstrip]
  have hcons : k.data ++ (' ' :: '=' :: ' ' :: '"' :: (v.data ++ ['"'])) =
      kh :: (kt ++ (' ' :: '=' :: ' ' :: '"' :: (v.data ++ ['"']))) := by
    rw [hkdata]
    simp
  rw [hcons]
  have hident2 : eatIdent1 (kh :: (kt ++ (' ' :: '=' :: ' ' :: '"' :: (v.data ++ ['"'])))) =
      some (k.data, ' ' :: '=' :: ' ' :: '"' :: (v.data ++ ['"'])) := by
    rw [← hcons]
    exact hident
  have hlit2 : eatLit "[[".data (kh :: (kt ++ (' ' :: '=' :: ' ' :: '"' ::
      (v.data ++ ['"'])))) = none := by
    rw [← hcons]
    exact hlitff
  simp only [if_neg (ne_of_ident hkh (by decide : isIdentChar '#' = false)), hlit2, hident2]
  simp [hws1, hws2, eatChar, hquoted, asString_data]

theorem classify_header (n : String) (hn : WfKey n) :
    classifyLine ("[[" ++ n ++ "]]") = some (.header n) := by
  obtain ⟨hne, hid⟩ := hn
  have hdata : ("[[" ++ n ++ "]]").data = '[' :: '[' :: (n.data ++ [']', ']']) := by
    simp only [String.data_append, show "[[".data = ['[', '['] from by decide,
      show "]]".data = [']', ']'] from by decide]
    simp
  have hstrip : ((("[[" ++ n ++ "]]").data.dropWhile isWs).reverse.dropWhile isWs).reverse =
      '[' :: '[' :: (n.data ++ [']', ']']) := by
    rw [hdata]
    refine stripWs_id _ ?_ ?_
    · intro y hy
      simp only [List.head?_cons, Option.mem_def, Option.some.injEq] at hy
      subst hy
      decide
    · intro y hy
      rw [show ('[' :: '[' :: (n.data ++ [']', ']'])) =
        ('[' :: '[' :: (n.data ++ [']'])) ++ [']'] from by simp,
        List.getLast?_concat, Option.mem_def, Option.some.injEq] at hy
      subst hy
      decide
  have hsat := takeWhile_sat_append isIdentChar n.data [']', ']'] hid
    (by
      intro y hy
      simp only [List.head?_cons, Option.mem_def, Option.some.injEq] at hy
      subst hy
      decide)
  have hident : eatIdent1 (n.data ++ [']', ']']) = some (n.data, [']', ']']) := by
    simp only [eatIdent1, hsat.1, hsat.2]
    rw [if_neg (by simpa [List.isEmpty_iff] using hne)]
  unfold classifyLine
  rw [hstrip]
  have hlit2 : eatLit "[[".data ('[' :: '[' :: (n.data ++ [']', ']'])) =
      some (n.data ++ [']', ']']) := by
    rw [show ('[' :: '[' :: (n.data ++ [']', ']'])) =
      "[[".data ++ (n.data ++ [']', ']']) from by
        simp [show "[[".data = ['[', '['] from by decide]]
    exact eatLit_append _ _
  have hlit3 : eatLit "]]".data ([']', ']'] : List Char) = some [] := by decide
  simp only [if_neg (by decide : ¬ ('[' : Char) = '#'), hlit2, hident, hlit3, asString_data]

/-! ## TOML round trip: folding the parser over the serializer's output -/

theorem getKV_eq_none_iff {e : List (String × String)} {k : String} :
    getKV e k = none ↔ k ∉ e.map Prod.fst := by
  induction e with
  | nil => simp [getKV]
  | cons p e ih =>
    obtain ⟨q, v⟩ := p
    by_cases hq : q = k
    · subst hq
      simp [getKV]
    · simp [getKV, hq, ih, Ne.symm hq]

theorem flushCur_scalars (st : PState) : (flushCur st).scalars = st.scalars := by
  obtain ⟨sc, ar, cur⟩ := st
  cases cur <;> rfl

theorem flushCur_of_none {st : PState} (h : st.cur = none) : flushCur st = st := by
  obtain ⟨sc, ar, cur⟩ := st
  simp only at h
  subst h
  rfl

theorem fold_scalars :
    ∀ (s : List (String × String)) (st : PState), st.cur = none →
      (∀ p ∈ s, WfKey p.1 ∧ WfVal p.2) →
      ((st.scalars ++ s).map Prod.fst).Nodup →
      List.foldlM stepLine st (s.map kvLine) =
        some { scalars := st.scalars ++ s, arrays := st.arrays, cur := none } := by
  intro s
  induction s with
  | nil =>
    intro st hcur _ _
    obtain ⟨sc, ar, cur⟩ := st
    simp only at hcur
    subst hcur
    simp
  | cons p s ih =>
    intro st hcur hwf hnd
    obtain ⟨k, v⟩ := p
    have hkwf := hwf (k, v) (by simp)
    have hkmem : k ∉ st.scalars.map Prod.fst := by
      simp only [List.map_append, List.nodup_append] at hnd
      intro hmem
      exact hnd.2.2 hmem (by simp)
    have hhas : hasKV st.scalars k = false :=
      hasKV_eq_false.mpr (getKV_eq_none_iff.mpr hkmem)
    have hstep : stepLine st (kvLine (k, v)) =
        some { scalars := st.scalars ++ [(k, v)], arrays := st.arrays, cur := none } := by
      simp only [stepLine, classify_kvLine k v hkwf.1 hkwf.2, hcur, hhas,
        Bool.false_eq_true, if_false]
    rw [List.map_cons, List.foldlM_cons, hstep]
    exact (ih ⟨st.scalars ++ [(k, v)], st.arrays, none⟩ rfl
      (fun p hp => hwf p (by simp [hp]))
      (by simpa [List.append_assoc] using hnd)).trans
      (by simp [List.append_assoc])

theorem fold_section_kvs :
    ∀ (tk : List (String × String)) (st : PState) (n : String) (cur : Entry),
      st.cur = some (n, cur) →
      (∀ p ∈ tk, WfKey p.1 ∧ WfVal p.2) →
      ((cur ++ tk).map Prod.fst).Nodup →
      List.foldlM stepLine st (tk.map kvLine) =
        some { scalars := st.scalars, arrays := st.arrays,
               cur := some (n, cur ++ tk) } := by
  intro tk
  induction tk with
  | nil =>
    intro st n cur hcur _ _
    obtain ⟨sc, ar, c⟩ := st
    simp only at hcur
    subst hcur
    simp
  | cons p tk ih =>
    intro st n cur hcur hwf hnd
    obtain ⟨k, v⟩ := p
    have hkwf := hwf (k, v) (by simp)
    have hkmem : k ∉ cur.map Prod.fst := by
      simp only [List.map_append, List.nodup_append] at hnd
      intro hmem
      exact hnd.2.2 hmem (by simp)
    have hhas : hasKV cur k = false :=
      hasKV_eq_false.mpr (getKV_eq_none_iff.mpr hkmem)
    have hstep : stepLine st (kvLine (k, v)) =
        some { scalars := st.scalars, arrays := st.arrays,
               cur := some (n, cur ++ [(k, v)]) } := by
      simp only [stepLine, classify_kvLine k v hkwf.1 hkwf.2, hcur, hhas,
        Bool.false_eq_true, if_false]
    rw [List.map_cons, List.foldlM_cons, hstep]
    exact (ih ⟨st.scalars, st.arrays, some (n, cur ++ [(k, v)])⟩ n (cur ++ [(k, v)]) rfl
      (fun p hp => hwf p (by simp [hp]))
      (by simpa [List.append_assoc] using hnd)).trans
      (by simp [List.append_assoc])

theorem fold_block (n : String) (e : Entry) (st : PState)
    (hn : WfKey n) (hnd : (e.map Prod.fst).Nodup)
    (hwf : ∀ p ∈ e, WfKey p.1 ∧ WfVal p.2) :
    List.foldlM stepLine st (dumpEntryBlock n e) =
      some { scalars := (flushCur st).scalars, arrays := (flushCur st).arrays,
             cur := some (n, e) } := by
  have hlist : dumpEntryBlock n e = ("[[" ++ n ++ "]]") :: (e.map kvLine ++ [""]) := by
    simp [dumpEntryBlock]
  rw [hlist, List.foldlM_cons]
  have hstep : stepLine st ("[[" ++ n ++ "]]") =
      some { scalars := (flushCur st).scalars, arrays := (flushCur st).arrays,
             cur := some (n, []) } := by
    simp only [stepLine, classify_header n hn]
  rw [hstep]
  have h2 := fold_section_kvs e ⟨(flushCur st).scalars, (flushCur st).arrays,
    some (n, [])⟩ n [] rfl hwf (by simpa using hnd)
  show List.foldlM stepLine ⟨(flushCur st).scalars, (flushCur st).arrays, some (n, [])⟩
    (e.map kvLine ++ [""]) = _
  rw [List.foldlM_append, h2]
  show List.foldlM stepLine ⟨(flushCur st).scalars, (flushCur st).arrays,
    some (n, [] ++ e)⟩ [""] = _
  simp [List.foldlM_cons, List.foldlM_nil, stepLine_blank]

theorem fold_blocks (n : String) (hn : WfKey n) :
    ∀ (ts : List Entry) (st : PState), ts ≠ [] → (∀ e ∈ ts, WfEntry e) →
      ∃ st', List.foldlM stepLine st (concatMap (dumpEntryBlock n) ts) = some st' ∧
        flushCur st' = { scalars := (flushCur st).scalars,
                         arrays := addTables (flushCur st).arrays n ts, cur := none } := by
  intro ts
  induction ts with
  | nil => intro st h; exact absurd rfl h
  | cons t ts ih =>
    intro st _ hwf
    have hwt : WfEntry t := hwf t (by simp)
    rw [show concatMap (dumpEntryBlock n) (t :: ts) =
      dumpEntryBlock n t ++ concatMap (dumpEntryBlock n) ts from rfl]
    rw [List.foldlM_append, fold_block n t st hn hwt.1 hwt.2]
    cases ts with
    | nil =>
      refine ⟨⟨(flushCur st).scalars, (flushCur st).arrays, some (n, t)⟩, ?_, ?_⟩
      · simp [concatMap]
      · rfl
    | cons t₂ ts₂ =>
      obtain ⟨st', hfold, hflush⟩ :=
        ih ⟨(flushCur st).scalars, (flushCur st).arrays, some (n, t)⟩
          (by simp) (fun e he => hwf e (by simp [he]))
      refine ⟨st', hfold, ?_⟩
      rw [hflush]
      rfl

theorem fold_arrays :
    ∀ (arrs : List (String × List Entry)) (st : PState),
      (∀ a ∈ arrs, WfKey a.1 ∧ a.2 ≠ [] ∧ ∀ e ∈ a.2, WfEntry e) →
      ∃ st', List.foldlM stepLine st
          (concatMap (fun sa => concatMap (dumpEntryBlock sa.1) sa.2) arrs) = some st' ∧
        flushCur st' = ⟨(flushCur st).scalars,
          arrs.foldl (fun acc a => addTables acc a.1 a.2) (flushCur st).arrays, none⟩ := by
  intro arrs
  induction arrs with
  | nil =>
    intro st _
    refine ⟨st, by simp [concatMap], ?_⟩
    obtain ⟨sc, ar, cur⟩ := st
    cases cur <;> rfl
  | cons a arrs ih =>
    intro st hwf
    obtain ⟨n, ts⟩ := a
    have ha := hwf (n, ts) (by simp)
    rw [show concatMap (fun sa => concatMap (dumpEntryBlock sa.1) sa.2) ((n, ts) :: arrs) =
      concatMap (dumpEntryBlock n) ts ++
        concatMap (fun sa => concatMap (dumpEntryBlock sa.1) sa.2) arrs from rfl]
    rw [List.foldlM_append]
    obtain ⟨st₁, hf₁, hflush₁⟩ := fold_blocks n ha.1 ts st ha.2.1 ha.2.2
    rw [hf₁]
    obtain ⟨st', hf₂, hflush₂⟩ := ih st₁ (fun a haa => hwf a (by simp [haa]))
    refine ⟨st', hf₂, ?_⟩
    rw [hflush₂, hflush₁]
    simp [List.foldl_cons]

theorem addTable_fresh {a : List (String × List Entry)} {n : String} (t : Entry)
    (h : n ∉ a.map Prod.fst) : addTable a n t = a ++ [(n, [t])] := by
  induction a with
  | nil => rfl
  | cons p a ih =>
    obtain ⟨q, ts⟩ := p
    simp only [List.map_cons, List.mem_cons] at h
    push_neg at h
    simp [addTable, show ¬ q = n from fun hh => h.1 hh.symm, ih h.2]

theorem addTable_last {a : List (String × List Entry)} {n : String}
    (h : n ∉ a.map Prod.fst) (acc : List Entry) (t : Entry) :
    addTable (a ++ [(n, acc)]) n t = a ++ [(n, acc ++ [t])] := by
  induction a with
  | nil => simp [addTable]
  | cons p a ih =>
    obtain ⟨q, ts⟩ := p
    simp only [List.map_cons, List.mem_cons] at h
    push_neg at h
    simp [addTable, show ¬ q = n from fun hh => h.1 hh.symm, ih h.2]

theorem addTables_acc {a : List (String × List Entry)} {n : String}
    (h : n ∉ a.map Prod.fst) :
    ∀ (ts acc : List Entry), addTables (a ++ [(n, acc)]) n ts = a ++ [(n, acc ++ ts)] := by
  intro ts
  induction ts with
  | nil => intro acc; simp [addTables]
  | cons t ts ih =>
    intro acc
    rw [show addTables (a ++ [(n, acc)]) n (t :: ts) =
      addTables (addTable (a ++ [(n, acc)]) n t) n ts from rfl]
    rw [addTable_last h acc t, ih (acc ++ [t])]
    simp

theorem addTables_fresh {a : List (String × List Entry)} {n : String} {ts : List Entry}
    (h : n ∉ a.map Prod.fst) (hne : ts ≠ []) :
    addTables a n ts = a ++ [(n, ts)] := by
  cases ts with
  | nil => exact absurd rfl hne
  | cons t ts =>
    rw [show addTables a n (t :: ts) = addTables (addTable a n t) n ts from rfl]
    rw [addTable_fresh t h, addTables_acc h ts [t]]
    simp

theorem foldl_addTables_fresh :
    ∀ (arrs a : List (String × List Entry)),
      ((a ++ arrs).map Prod.fst).Nodup → (∀ x ∈ arrs, x.2 ≠ []) →
      arrs.foldl (fun acc x => addTables acc x.1 x.2) a = a ++ arrs := by
  intro arrs
  induction arrs with
  | nil =>
    intro a _ _
    simp
  | cons x arrs ih =>
    intro a hnd hne
    obtain ⟨n, ts⟩ := x
    rw [List.foldl_cons]
    have hmem : n ∉ a.map Prod.fst := by
      simp only [List.map_append, List.nodup_append, List.map_cons] at hnd
      intro hmem
      exact hnd.2.2 hmem (by simp)
    rw [addTables_fresh hmem (hne (n, ts) (by simp))]
    rw [ih (a ++ [(n, ts)]) (by simpa [List.append_assoc] using hnd)
      (fun x hx => hne x (by simp [hx]))]
    simp

/-- `toml.load` inverts `toml.dump` on well-formed documents: the round trip
through the file system reproduces the parsed data exactly. -/
theorem tomlLoad_dump {d : TomlDoc} (h : WfDoc d) :
    tomlLoadLines (tomlDumpLines d) = some d := by
  obtain ⟨hsnd, hswf, hand, hawf⟩ := h
  obtain ⟨st', hf, hflush⟩ := fold_arrays d.arrays ⟨[] ++ d.scalars, [], none⟩ hawf
  have hfold : List.foldlM stepLine (⟨[], [], none⟩ : PState)
      (d.scalars.map kvLine ++
        concatMap (fun sa => concatMap (dumpEntryBlock sa.1) sa.2) d.arrays) = some st' := by
    rw [List.foldlM_append,
      fold_scalars d.scalars ⟨[], [], none⟩ rfl hswf (by simpa using hsnd)]
    exact hf
  have hcur : flushCur (⟨[] ++ d.scalars, [], none⟩ : PState) =
      (⟨[] ++ d.scalars, [], none⟩ : PState) := flushCur_of_none rfl
  rw [hcur] at hflush
  simp only [List.nil_append] at hflush
  rw [foldl_addTables_fresh d.arrays [] (by simpa using hand)
    (fun x hx => (hawf x hx).2.1)] at hflush
  unfold tomlLoadLines tomlDumpLines
  rw [hfold]
  simp [hflush]

/-! ## TOML round trip: the parser only produces well-formed documents -/

theorem eatIdent1_sound {l name rest : List Char}
    (h : eatIdent1 l = some (name, rest)) :
    name ≠ [] ∧ ∀ c ∈ name, isIdentChar c = true := by
  unfold eatIdent1 at h
  by_cases he : (l.takeWhile isIdentChar).isEmpty
  · simp [he] at h
  · simp only [he, Bool.false_eq_true, if_false, Option.some.injEq, Prod.mk.injEq] at h
    obtain ⟨h1, _⟩ := h
    subst h1
    refine ⟨by simpa [List.isEmpty_iff] using he, ?_⟩
    intro c hc
    exact List.mem_takeWhile_imp hc

theorem eatQuoted_sound {l inner rest : List Char}
    (h : eatQuoted l = some (inner, rest)) : ∀ c ∈ inner, c ≠ '"' := by
  unfold eatQuoted at h
  split at h
  · exact absurd h (by simp)
  · split at h
    · split at h
      · split at h
        · simp only [Option.some.injEq, Prod.mk.injEq] at h
          obtain ⟨h1, _⟩ := h
          subst h1
          intro c hc
          simpa using List.mem_takeWhile_imp hc
        · exact absurd h (by simp)
      · exact absurd h (by simp)
    · exact absurd h (by simp)

theorem classifyLine_kv_sound {s : String} {k v : String}
    (h : classifyLine s = some (.kv k v)) : WfKey k ∧ WfVal v := by
  simp only [classifyLine] at h
  split at h
  · exact absurd h (by simp)
  · split at h
    · exact absurd h (by simp)
    · split at h
      · split at h
        · split at h
          · exact absurd h (by simp)
          · exact absurd h (by simp)
        · exact absurd h (by simp)
      · split at h
        · split at h
          · split at h
            · rename eatIdent1 _ = _ => hident
              rename eatQuoted _ = _ => hquoted
              simp only [Option.some.injEq, TomlLine.kv.injEq] at h
              obtain ⟨hk, hv⟩ := h
              subst hk
              subst hv
              obtain ⟨hne, hid⟩ := eatIdent1_sound hident
              refine ⟨⟨by simpa using hne, by simpa using hid⟩, ?_⟩
              intro c hc
              exact eatQuoted_sound hquoted c (by simpa using hc)
            · exact absurd h (by simp)
          · exact absurd h (by simp)
        · exact absurd h (by simp)

theorem classifyLine_header_sound {s : String} {n : String}
    (h : classifyLine s = some (.header n)) : WfKey n := by
  simp only [classifyLine] at h
  split at h
  · exact absurd h (by simp)
  · split at h
    · exact absurd h (by simp)
    · split at h
      · split at h
        · split at h
          · rename eatIdent1 _ = _ => hident
            simp only [Option.some.injEq, TomlLine.header.injEq] at h
            subst h
            obtain ⟨hne, hid⟩ := eatIdent1_sound hident
            exact ⟨by simpa using hne, by simpa using hid⟩
          · exact absurd h (by simp)
        · exact absurd h (by simp)
      · split at h
        · split at h
          · split at h
            · exact absurd h (by simp)
            · exact absurd h (by simp)
          · exact absurd h (by simp)
        · exact absurd h (by simp)

theorem keys_addTable_subset {a : List (String × List Entry)} {n : String} {t : Entry} :
    ∀ x ∈ (addTable a n t).map Prod.fst, x ∈ a.map Prod.fst ∨ x = n := by
  induction a with
  | nil => simp [addTable]
  | cons p a ih =>
    obtain ⟨q, ts⟩ := p
    by_cases hq : q = n
    · subst hq
      intro x hx
      have heq : addTable ((q, ts) :: a) q t = (q, ts ++ [t]) :: a := by
        simp [addTable]
      rw [heq] at hx
      simp only [List.map_cons, List.mem_cons] at hx
      rcases hx with rfl | hx
      · exact Or.inl (by simp)
      · exact Or.inl (by simp [hx])
    · intro x hx
      simp only [addTable, if_neg hq, List.map_cons, List.mem_cons] at hx
      rcases hx with rfl | hx
      · simp
      · rcases ih x hx with h1 | h1
        · exact Or.inl (by simp [h1])
        · exact Or.inr h1

theorem addTable_wf {a : List (String × List Entry)} {n : String} {t : Entry}
    (hnd : (a.map Prod.fst).Nodup)
    (hA : ∀ x ∈ a, WfKey x.1 ∧ x.2 ≠ [] ∧ ∀ e ∈ x.2, WfEntry e)
    (hn : WfKey n) (ht : WfEntry t) :
    ((addTable a n t).map Prod.fst).Nodup ∧
      ∀ x ∈ addTable a n t, WfKey x.1 ∧ x.2 ≠ [] ∧ ∀ e ∈ x.2, WfEntry e := by
  induction a with
  | nil =>
    refine ⟨by simp [addTable], ?_⟩
    intro x hx
    simp only [addTable, List.mem_singleton] at hx
    subst hx
    exact ⟨hn, by simp, by simpa using ht⟩
  | cons p a ih =>
    obtain ⟨q, ts⟩ := p
    have hqwf := hA (q, ts) (by simp)
    have hndtl : (a.map Prod.fst).Nodup := (List.nodup_cons.mp (by simpa using hnd)).2
    have hAtl : ∀ x ∈ a, WfKey x.1 ∧ x.2 ≠ [] ∧ ∀ e ∈ x.2, WfEntry e :=
      fun x hx => hA x (by simp [hx])
    have heq : q = n → addTable ((q, ts) :: a) n t = (q, ts ++ [t]) :: a := by
      intro hqn
      simp [addTable, hqn]
    by_cases hq : q = n
    · refine ⟨?_, ?_⟩
      · rw [heq hq]
        simpa using hnd
      · intro x hx
        rw [heq hq] at hx
        simp only [List.mem_cons] at hx
        rcases hx with rfl | hx
        · refine ⟨hqwf.1, by simp, ?_⟩
          intro e he
          rcases List.mem_append.mp he with h1 | h1
          · exact hqwf.2.2 e h1
          · simp only [List.mem_singleton] at h1
            subst h1
            exact ht
        · exact hA x (by simp [hx])
    · obtain ⟨ihnd, ihwf⟩ := ih hndtl hAtl
      constructor
      · simp only [addTable, if_neg hq, List.map_cons]
        refine List.nodup_cons.mpr ⟨?_, ihnd⟩
        intro hmem
        rcases keys_addTable_subset q hmem with h1 | h1
        · exact (List.nodup_cons.mp (by simpa using hnd)).1 h1
        · exact hq h1
      · intro x hx
        simp only [addTable, if_neg hq, List.mem_cons] at hx
        rcases hx with rfl | hx
        · exact hqwf
        · exact ihwf x hx

theorem flushCur_wf {st : PState} (h : WfPState st) : WfPState (flushCur st) := by
  obtain ⟨sc, ar, cur⟩ := st
  obtain ⟨h1, h2, h3, h4, h5⟩ := h
  cases cur with
  | none => exact ⟨h1, h2, h3, h4, by simp [flushCur]⟩
  | some p =>
    obtain ⟨n, t⟩ := p
    have hcur := h5 n t rfl
    have := addTable_wf h3 h4 hcur.1 ⟨hcur.2.1, hcur.2.2⟩
    exact ⟨h1, h2, this.1, this.2, by simp [flushCur]⟩

theorem stepLine_wf {st st' : PState} {s : String}
    (hwf : WfPState st) (h : stepLine st s = some st') : WfPState st' := by
  obtain ⟨h1, h2, h3, h4, h5⟩ := hwf
  unfold stepLine at h
  split at h
  · exact absurd h (by simp)
  · simp only [Option.some.injEq] at h
    subst h
    exact ⟨h1, h2, h3, h4, h5⟩
  · rename_i n hcls
    simp only [Option.some.injEq] at h
    subst h
    obtain ⟨g1, g2, g3, g4, _⟩ := flushCur_wf ⟨h1, h2, h3, h4, h5⟩
    refine ⟨g1, g2, g3, g4, ?_⟩
    intro n' cur' hc
    simp only [Option.some.injEq, Prod.mk.injEq] at hc
    obtain ⟨rfl, rfl⟩ := hc
    exact ⟨classifyLine_header_sound hcls, by simp, by simp⟩
  · rename_i k v hcls
    have hkv := classifyLine_kv_sound hcls
    split at h
    · rename_i hcurnone
      split at h
      · exact absurd h (by simp)
      · rename_i hhas
        simp only [Option.some.injEq] at h
        subst h
        refine ⟨?_, ?_, h3, h4, ?_⟩
        · rw [List.map_append]
          refine List.Nodup.append h1 (by simp) ?_
          intro x hx hx2
          simp only [List.map_cons, List.map_nil, List.mem_singleton] at hx2
          subst hx2
          exact getKV_eq_none_iff.mp (hasKV_eq_false.mp (by simpa using hhas)) hx
        · intro p hp
          rcases List.mem_append.mp hp with h' | h'
          · exact h2 p h'
          · simp only [List.mem_singleton] at h'
            subst h'
            exact hkv
        · intro n' cur' hc
          rw [show ({ st with scalars := st.scalars ++ [(k, v)] } : PState).cur
            = st.cur from rfl, hcurnone] at hc
          exact absurd hc (by simp)
    · rename_i n t hcursome
      split at h
      · exact absurd h (by simp)
      · rename_i hhas
        simp only [Option.some.injEq] at h
        subst h
        refine ⟨h1, h2, h3, h4, ?_⟩
        intro n' cur' hc
        simp only [Option.some.injEq, Prod.mk.injEq] at hc
        obtain ⟨rfl, rfl⟩ := hc
        have hcur := h5 n t hcursome
        refine ⟨hcur.1, ?_, ?_⟩
        · rw [List.map_append]
          refine List.Nodup.append hcur.2.1 (by simp) ?_
          intro x hx hx2
          simp only [List.map_cons, List.map_nil, List.mem_singleton] at hx2
          subst hx2
          exact getKV_eq_none_iff.mp (hasKV_eq_false.mp (by simpa using hhas)) hx
        · intro p hp
          rcases List.mem_append.mp hp with h' | h'
          · exact hcur.2.2 p h'
          · simp only [List.mem_singleton] at h'
            subst h'
            exact hkv

theorem foldlM_stepLine_wf :
    ∀ (lines : List String) (st st' : PState), WfPState st →
      List.foldlM stepLine st lines = some st' → WfPState st' := by
  intro lines
  induction lines with
  | nil =>
    intro st st' hwf h
    simp only [List.foldlM_nil, Option.pure_def, Option.some.injEq] at h
    subst h
    exact hwf
  | cons l lines ih =>
    intro st st' hwf h
    rw [List.foldlM_cons] at h
    cases hstep : stepLine st l with
    | none =>
      rw [hstep] at h
      exact absurd h (by simp)
    | some st₁ =>
      rw [hstep] at h
      exact ih st₁ st' (stepLine_wf hwf hstep) h

/-- Whatever `toml.load` accepts, it produces a well-formed document. -/
theorem tomlLoad_wf {lines : List String} {d : TomlDoc}
    (h : tomlLoadLines lines = some d) : WfDoc d := by
  unfold tomlLoadLines at h
  split at h
  · rename_i st hfold
    simp only [Option.some.injEq] at h
    subst h
    have hwf := foldlM_stepLine_wf lines ⟨[], [], none⟩ st
      ⟨by simp, by simp, by simp, by simp, by simp⟩ hfold
    obtain ⟨g1, g2, g3, g4, _⟩ := flushCur_wf hwf
    exact ⟨g1, g2, g3, g4⟩
  · exact absurd h (by simp)

/-! ## The Structured rewrite preserves well-formedness -/

theorem delKV_sublist (e : List (String × String)) (k : String) :
    List.Sublist (delKV e k) e := by
  induction e with
  | nil => exact List.Sublist.refl _
  | cons p e ih =>
    obtain ⟨q, v⟩ := p
    by_cases hq : q = k
    · simp only [delKV, if_pos hq]
      exact ih.cons _
    · simp only [delKV, if_neg hq]
      exact ih.cons₂ _

theorem WfEntry_delKV {e : Entry} {k : String} (h : WfEntry e) : WfEntry (delKV e k) := by
  obtain ⟨h1, h2⟩ := h
  refine ⟨List.Nodup.sublist ((delKV_sublist e k).map Prod.fst) h1, ?_⟩
  intro p hp
  exact h2 p ((delKV_sublist e k).subset hp)

theorem keys_setKV_subset {e : List (String × String)} {k v : String} :
    ∀ x ∈ (setKV e k v).map Prod.fst, x ∈ e.map Prod.fst ∨ x = k := by
  induction e with
  | nil => simp [setKV]
  | cons p e ih =>
    obtain ⟨q, w⟩ := p
    by_cases hq : q = k
    · subst hq
      intro x hx
      have hs : setKV ((q, w) :: e) q v = (q, v) :: e := by simp [setKV]
      rw [hs] at hx
      simp only [List.map_cons, List.mem_cons] at hx
      rcases hx with rfl | hx
      · exact Or.inr rfl
      · exact Or.inl (by simp [hx])
    · intro x hx
      simp only [setKV, if_neg hq, List.map_cons, List.mem_cons] at hx
      rcases hx with rfl | hx
      · exact Or.inl (by simp)
      · rcases ih x hx with h' | h'
        · exact Or.inl (by simp [h'])
        · exact Or.inr h'

theorem WfEntry_setKV {e : Entry} {k v : String} (he : WfEntry e)
    (hk : WfKey k) (hv : WfVal v) : WfEntry (setKV e k v) := by
  induction e with
  | nil =>
    refine ⟨by simp [setKV], ?_⟩
    intro p hp
    simp only [setKV, List.mem_singleton] at hp
    subst hp
    exact ⟨hk, hv⟩
  | cons p e ih =>
    obtain ⟨h1, h2⟩ := he
    obtain ⟨q, w⟩ := p
    have hqwf := h2 (q, w) (by simp)
    have h1' : (e.map Prod.fst).Nodup := (List.nodup_cons.mp (by simpa using h1)).2
    have hqe : q ∉ e.map Prod.fst := (List.nodup_cons.mp (by simpa using h1)).1
    have h2' : ∀ p ∈ e, WfKey p.1 ∧ WfVal p.2 := fun p hp => h2 p (by simp [hp])
    have heqv : q = k → setKV ((q, w) :: e) k v = (k, v) :: e := by
      intro hqk
      simp [setKV, hqk]
    by_cases hq : q = k
    · refine ⟨?_, ?_⟩
      · rw [heqv hq]
        rw [← hq]
        simpa using h1
      · intro p hp
        rw [heqv hq] at hp
        simp only [List.mem_cons] at hp
        rcases hp with rfl | hp
        · exact ⟨hk, hv⟩
        · exact h2' p hp
    · obtain ⟨ih1, ih2⟩ := ih ⟨h1', h2'⟩
      refine ⟨?_, ?_⟩
      · simp only [setKV, if_neg hq, List.map_cons]
        refine List.nodup_cons.mpr ⟨?_, ih1⟩
        intro hmem
        rcases keys_setKV_subset q hmem with h' | h'
        · exact hqe h'
        · exact hq h'
      · intro p hp
        simp only [setKV, if_neg hq, List.mem_cons] at hp
        rcases hp with rfl | hp
        · exact hqwf
        · exact ih2 p hp

theorem getKV_mem {e : List (String × String)} {k v : String}
    (h : getKV e k = some v) : (k, v) ∈ e := by
  induction e with
  | nil => simp [getKV] at h
  | cons p e ih =>
    obtain ⟨q, w⟩ := p
    by_cases hq : q = k
    · subst hq
      have hg : getKV ((q, w) :: e) q = some w := by simp [getKV]
      rw [hg] at h
      simp only [Option.some.injEq] at h
      subst h
      simp
    · simp only [getKV, if_neg hq] at h
      simp [ih h]

theorem transformEntry_wf {reg : List String} {e : Entry} (h : WfEntry e) :
    WfEntry (transformEntry reg e).1 := by
  cases hname : getKV e "name" with
  | none =>
    have h0 : (transformEntry reg e).1 = e := by
      simp [transformEntry, hname]
    rw [h0]
    exact h
  | some n =>
    by_cases hmem : n ∈ reg
    · have hnv : WfVal n := (h.2 ("name", n) (getKV_mem hname)).2
      have he5 : WfEntry (delKV (delKV (delKV (delKV (delKV e "git") "url") "rev")
          "version") "scope") :=
        WfEntry_delKV (WfEntry_delKV (WfEntry_delKV (WfEntry_delKV (WfEntry_delKV h))))
      have hvrel : WfVal ("../" ++ n) := by
        intro c hc
        rw [String.data_append] at hc
        rcases List.mem_append.mp hc with h' | h'
        · rw [show "../".data = ['.', '.', '/'] from by decide] at h'
          simp only [List.mem_cons] at h'
          rcases h' with rfl | rfl | rfl | h'
          · decide
          · decide
          · decide
          · simp at h'
        · exact hnv c h'
      simp only [transformEntry, hname, if_pos hmem]
      split
      · exact WfEntry_setKV he5 ⟨by decide, by decide⟩ hvrel
      · exact he5
    · have h0 : (transformEntry reg e).1 = e := by
        simp [transformEntry, hname, hmem]
      rw [h0]
      exact h

theorem keys_setArr_of_get {a : List (String × List Entry)} {k : String}
    {v w : List Entry} (h : getArr a k = some v) :
    (setArr a k w).map Prod.fst = a.map Prod.fst := by
  induction a with
  | nil => simp [getArr] at h
  | cons p a ih =>
    obtain ⟨q, ts⟩ := p
    by_cases hq : q = k
    · subst hq
      simp [setArr]
    · simp only [getArr, if_neg hq] at h
      simp [setArr, hq, ih h]

theorem mem_setArr {a : List (String × List Entry)} {k : String} {w : List Entry} :
    ∀ x ∈ setArr a k w, x ∈ a ∨ x = (k, w) := by
  induction a with
  | nil => simp [setArr]
  | cons p a ih =>
    obtain ⟨q, ts⟩ := p
    by_cases hq : q = k
    · subst hq
      intro x hx
      have hs : setArr ((q, ts) :: a) q w = (q, w) :: a := by simp [setArr]
      rw [hs] at hx
      simp only [List.mem_cons] at hx
      rcases hx with rfl | hx
      · exact Or.inr rfl
      · exact Or.inl (by simp [hx])
    · intro x hx
      simp only [setArr, if_neg hq, List.mem_cons] at hx
      rcases hx with rfl | hx
      · exact Or.inl (by simp)
      · rcases ih x hx with h' | h'
        · exact Or.inl (by simp [h'])
        · exact Or.inr h'

theorem getArr_mem {a : List (String × List Entry)} {k : String} {v : List Entry}
    (h : getArr a k = some v) : (k, v) ∈ a := by
  induction a with
  | nil => simp [getArr] at h
  | cons p a ih =>
    obtain ⟨q, ts⟩ := p
    by_cases hq : q = k
    · subst hq
      have hg : getArr ((q, ts) :: a) q = some ts := by simp [getArr]
      rw [hg] at h
      simp only [Option.some.injEq] at h
      subst h
      simp
    · simp only [getArr, if_neg hq] at h
      simp [ih h]

theorem modify_toml_data_wf {reg : List String} {d : TomlDoc} (h : WfDoc d) :
    WfDoc (modify_toml_data reg d).1 := by
  obtain ⟨h1, h2, h3, h4⟩ := h
  cases harr : getArr d.arrays "require" with
  | none =>
    have h0 : (modify_toml_data reg d).1 = d := by
      simp [modify_toml_data, harr]
    rw [h0]
    exact ⟨h1, h2, h3, h4⟩
  | some entries =>
    have hreq := h4 ("require", entries) (getArr_mem harr)
    simp only [modify_toml_data, harr]
    refine ⟨h1, h2, ?_, ?_⟩
    · rw [keys_setArr_of_get harr]
      exact h3
    · intro a ha
      rcases mem_setArr a ha with h' | h'
      · exact h4 a h'
      · subst h'
        have hreqkey : WfKey "require" := ⟨by decide, by decide⟩
        refine ⟨hreqkey, ?_, ?_⟩
        · simpa using hreq.2.1
        · intro e he
          simp only [List.map_map, List.mem_map] at he
          obtain ⟨e0, he0, rfl⟩ := he
          exact transformEntry_wf (hreq.2.2 e0 he0)

/-- File-level idempotence of the Structured strategy: the second application
reads back exactly the data the first one wrote, finds nothing to change,
reports no modification and performs no write. -/
theorem modify_toml_lakefile_idem (reg : List String) (lines : List String) :
    modify_toml_lakefile reg (modify_toml_lakefile reg lines).1 =
      ((modify_toml_lakefile reg lines).1, false) := by
  cases hload : tomlLoadLines lines with
  | none =>
    have h1 : modify_toml_lakefile reg lines = (lines, false) := by
      simp [modify_toml_lakefile, hload]
    rw [h1]
    exact h1
  | some d =>
    have hwd : WfDoc (modify_toml_data reg d).1 := modify_toml_data_wf (tomlLoad_wf hload)
    cases hm : (modify_toml_data reg d).2 with
    | false =>
      have h1 : modify_toml_lakefile reg lines = (lines, false) := by
        simp [modify_toml_lakefile, hload, hm]
      rw [h1]
      exact h1
    | true =>
      have h1 : modify_toml_lakefile reg lines =
          (tomlDumpLines (modify_toml_data reg d).1, true) := by
        simp [modify_toml_lakefile, hload, hm]
      rw [h1]
      have hidem := modify_toml_data_idem reg d
      simp only [modify_toml_lakefile, tomlLoad_dump hwd, hidem]
      simp

/-! ## Sorting (`sorted`) and world lookups -/

theorem lexLe_total : ∀ as bs, lexLe as bs = true ∨ lexLe bs as = true := by
  intro as
  induction as with
  | nil => intro bs; left; rfl
  | cons a as ih =>
    intro bs
    cases bs with
    | nil => right; rfl
    | cons b bs =>
      rcases lt_trichotomy a b with h | h | h
      · left
        simp [lexLe, h]
      · subst h
        rcases ih bs with h' | h'
        · left
          simp only [lexLe, if_neg (lt_irrefl a), if_pos rfl]
          exact h'
        · right
          simp only [lexLe, if_neg (lt_irrefl a), if_pos rfl]
          exact h'
      · right
        simp [lexLe, h]

theorem lexLe_antisymm : ∀ as bs, lexLe as bs = true → lexLe bs as = true → as = bs := by
  intro as
  induction as with
  | nil =>
    intro bs h1 h2
    cases bs with
    | nil => rfl
    | cons b bs => simp [lexLe] at h2
  | cons a as ih =>
    intro bs h1 h2
    cases bs with
    | nil => simp [lexLe] at h1
    | cons b bs =>
      rcases lt_trichotomy a b with h | h | h
      · have hf : lexLe (b :: bs) (a :: as) = false := by
          simp only [lexLe, if_neg (asymm h), if_neg (ne_of_gt h)]
        rw [hf] at h2
        cases h2
      · subst h
        simp only [lexLe, if_neg (lt_irrefl a), if_pos rfl] at h1 h2
        rw [ih bs h1 h2]
      · have hf : lexLe (a :: as) (b :: bs) = false := by
          simp only [lexLe, if_neg (asymm h), if_neg (ne_of_gt h)]
        rw [hf] at h1
        cases h1

theorem lexLe_trans : ∀ as bs cs, lexLe as bs = true → lexLe bs cs = true →
    lexLe as cs = true := by
  intro as
  induction as with
  | nil => intro bs cs h1 h2; rfl
  | cons a as ih =>
    intro bs cs h1 h2
    cases bs with
    | nil => simp [lexLe] at h1
    | cons b bs =>
      cases cs with
      | nil => simp [lexLe] at h2
      | cons c cs =>
        rcases lt_trichotomy a b with hab | hab | hab
        · rcases lt_trichotomy b c with hbc | hbc | hbc
          · simp [lexLe, lt_trans hab hbc]
          · subst hbc
            simp [lexLe, hab]
          · have hf : lexLe (b :: bs) (c :: cs) = false := by
              simp only [lexLe, if_neg (asymm hbc), if_neg (ne_of_gt hbc)]
            rw [hf] at h2
            cases h2
        · subst hab
          rcases lt_trichotomy a c with hac | hac | hac
          · simp [lexLe, hac]
          · subst hac
            simp only [lexLe, if_neg (lt_irrefl a), if_pos rfl] at h1 h2 ⊢
            exact ih bs cs h1 h2
          · have hf : lexLe (a :: bs) (c :: cs) = false := by
              simp only [lexLe, if_neg (asymm hac), if_neg (ne_of_gt hac)]
            rw [hf] at h2
            cases h2
        · have hf : lexLe (a :: as) (b :: bs) = false := by
            simp only [lexLe, if_neg (asymm hab), if_neg (ne_of_gt hab)]
          rw [hf] at h1
          cases h1

theorem strLe_total (x y : String) : strLe x y = true ∨ strLe y x = true :=
  lexLe_total x.data y.data

theorem strLe_of_not {x y : String} (h : ¬ strLe x y = true) : strLe y x = true := by
  rcases strLe_total x y with h' | h'
  · exact absurd h' h
  · exact h'

instance : IsAntisymm String (fun a b => strLe a b = true) := by
  refine ⟨fun a b h1 h2 => ?_⟩
  have hd := lexLe_antisymm a.data b.data h1 h2
  cases a
  cases b
  exact congrArg String.mk (by simpa using hd)

theorem insertStr_perm (x : String) : ∀ l : List String, List.Perm (insertStr x l) (x :: l) := by
  intro l
  induction l with
  | nil => exact List.Perm.refl _
  | cons y ys ih =>
    by_cases h : strLe x y
    · simp [insertStr, h]
    · simp only [insertStr, if_neg h]
      exact (ih.cons y).trans (List.Perm.swap x y ys)

theorem sortStrings_perm : ∀ l : List String, List.Perm (sortStrings l) l := by
  intro l
  induction l with
  | nil => exact List.Perm.refl _
  | cons x xs ih => exact (insertStr_perm x (sortStrings xs)).trans (ih.cons x)

theorem mem_insertStr {b x : String} {l : List String} :
    b ∈ insertStr x l ↔ b = x ∨ b ∈ l := by
  rw [(insertStr_perm x l).mem_iff]
  simp

theorem insertStr_sorted (x : String) :
    ∀ {l : List String}, List.Sorted (fun a b => strLe a b = true) l →
      List.Sorted (fun a b => strLe a b = true) (insertStr x l) := by
  intro l
  induction l with
  | nil =>
    intro _
    simp [insertStr]
  | cons y ys ih =>
    intro hs
    rw [List.sorted_cons] at hs
    by_cases h : strLe x y
    · simp only [insertStr, if_pos h]
      rw [List.sorted_cons]
      refine ⟨?_, List.sorted_cons.mpr hs⟩
      intro b hb
      simp only [List.mem_cons] at hb
      rcases hb with rfl | hb
      · exact h
      · exact lexLe_trans _ _ _ h (hs.1 b hb)
    · simp only [insertStr, if_neg h]
      rw [List.sorted_cons]
      refine ⟨?_, ih hs.2⟩
      intro b hb
      rcases mem_insertStr.mp hb with rfl | hb
      · exact strLe_of_not h
      · exact hs.1 b hb

theorem sortStrings_sorted :
    ∀ l : List String, List.Sorted (fun a b => strLe a b = true) (sortStrings l) := by
  intro l
  induction l with
  | nil => simp [sortStrings]
  | cons x xs ih => exact insertStr_sorted x ih

theorem sortStrings_eq_of_perm {l₁ l₂ : List String} (h : List.Perm l₁ l₂) :
    sortStrings l₁ = sortStrings l₂ :=
  List.eq_of_perm_of_sorted
    ((sortStrings_perm l₁).trans (h.trans (sortStrings_perm l₂).symm))
    (sortStrings_sorted l₁) (sortStrings_sorted l₂)

theorem findRepo_mem {repos : List RepoState} {n : String} {r : RepoState}
    (h : findRepo repos n = some r) : r ∈ repos ∧ r.name = n := by
  unfold findRepo at h
  exact ⟨List.mem_of_find?_eq_some h, by simpa using List.find?_some h⟩

theorem findRepo_eq_some_of_nodup {repos : List RepoState} {n : String} {r : RepoState}
    (hnd : (repos.map (fun x => x.name)).Nodup) (hmem : r ∈ repos) (hname : r.name = n) :
    findRepo repos n = some r := by
  induction repos with
  | nil => simp at hmem
  | cons x xs ih =>
    simp only [List.mem_cons] at hmem
    rcases hmem with rfl | hmem
    · unfold findRepo
      rw [List.find?_cons_of_pos _ (by simpa using hname)]
    · have hx : x.name ≠ n := by
        intro hxn
        have hm : r.name ∈ xs.map (fun x => x.name) := List.mem_map_of_mem _ hmem
        rw [hname, ← hxn] at hm
        exact (List.nodup_cons.mp (by simpa using hnd)).1 hm
      unfold findRepo
      rw [List.find?_cons_of_neg _ (by simpa using hx)]
      exact ih (List.nodup_cons.mp (by simpa using hnd)).2 hmem

theorem findRepo_none {repos : List RepoState} {n : String}
    (h : ∀ r ∈ repos, r.name ≠ n) : findRepo repos n = none := by
  unfold findRepo
  rw [List.find?_eq_none]
  intro x hx
  simpa using h x hx

theorem findRepo_reverse {repos : List RepoState}
    (h : (repos.map (fun x => x.name)).Nodup) (n : String) :
    findRepo repos.reverse n = findRepo repos n := by
  cases hf : findRepo repos n with
  | some r =>
    obtain ⟨hmem, hname⟩ := findRepo_mem hf
    refine findRepo_eq_some_of_nodup ?_ (by simpa using hmem) hname
    rw [List.map_reverse]
    exact List.nodup_reverse.mpr h
  | none =>
    apply findRepo_none
    intro r hr
    have hmem : r ∈ repos := by simpa using hr
    have := List.find?_eq_none.mp hf r hmem
    simpa using this

theorem rootRequires_reverse {repos : List RepoState}
    (h : (repos.map (fun r => r.name)).Nodup) :
    rootRequires repos.reverse = rootRequires repos := by
  unfold rootRequires
  rw [List.map_reverse, sortStrings_eq_of_perm (List.reverse_perm _)]
  apply List.filterMap_congr
  intro x _
  unfold resolveRequire
  rw [findRepo_reverse h]

theorem create_root_reverse {repos : List RepoState} (existing : Option (List String))
    (h : (repos.map (fun r => r.name)).Nodup) :
    create_root_lakefile repos.reverse existing = create_root_lakefile repos existing := by
  unfold create_root_lakefile
  rw [rootRequires_reverse h]

/-! ## First-match characterization of the package-name search -/

theorem scanPackage_first :
    ∀ (l n : List Char),
      scanPackage l = some n ↔
        ∃ k, matchPackageAt (l.drop k) = some n ∧
          ∀ j < k, matchPackageAt (l.drop j) = none := by
  intro l
  induction l with
  | nil =>
    intro n
    constructor
    · intro h
      simp [scanPackage] at h
    · rintro ⟨k, hk, _⟩
      rw [List.drop_nil] at hk
      rw [show matchPackageAt [] = none from rfl] at hk
      cases hk
  | cons c cs ih =>
    intro n
    rw [show scanPackage (c :: cs) =
      (match matchPackageAt (c :: cs) with
        | some m => some m
        | none => scanPackage cs) from rfl]
    cases hm : matchPackageAt (c :: cs) with
    | some m =>
      constructor
      · intro h
        have h' : some m = some n := h
        refine ⟨0, ?_, by omega⟩
        rw [List.drop_zero, hm, h']
      · rintro ⟨k, hk, hmin⟩
        cases k with
        | zero =>
          rw [List.drop_zero, hm] at hk
          exact hk
        | succ k' =>
          have h0 := hmin 0 (by omega)
          rw [List.drop_zero, hm] at h0
          cases h0
    | none =>
      constructor
      · intro h
        have h' : scanPackage cs = some n := h
        obtain ⟨k', hk, hmin⟩ := (ih n).mp h'
        refine ⟨k' + 1, by simpa [List.drop_succ_cons] using hk, ?_⟩
        intro j hj
        cases j with
        | zero =>
          rw [List.drop_zero]
          exact hm
        | succ j' =>
          rw [List.drop_succ_cons]
          exact hmin j' (by omega)
      · rintro ⟨k, hk, hmin⟩
        cases k with
        | zero =>
          rw [List.drop_zero, hm] at hk
          cases hk
        | succ k' =>
          show scanPackage cs = some n
          refine (ih n).mpr ⟨k', by simpa [List.drop_succ_cons] using hk, ?_⟩
          intro j hj
          have := hmin (j + 1) (by omega)
          rw [List.drop_succ_cons] at this
          exact this

/-! ## The claims -/

/-- C1 is refuted at a concrete input: with the registry listing `b` before
`a` (both resolvable), the composed root manifest's `require` list is in
sorted directory-name order `a, b`, not the registry order `b, a` that the
claim (and `specRootRequiresRegistryOrder`, which follows the spec's words)
prescribes. -/
theorem C1_counterexample :
    (create_root_lakefile
        [⟨"b", true, some ["name = \"bpkg\""], none⟩,
         ⟨"a", true, none, some "package apkg where"⟩] none).arrays =
      [("require", [[("name", "apkg"), ("path", "./a")],
                    [("name", "bpkg"), ("path", "./b")]])] ∧
    specRootRequiresRegistryOrder
        [⟨"b", true, some ["name = \"bpkg\""], none⟩,
         ⟨"a", true, none, some "package apkg where"⟩] =
      [[("name", "bpkg"), ("path", "./b")], [("name", "apkg"), ("path", "./a")]] ∧
    (create_root_lakefile
        [⟨"b", true, some ["name = \"bpkg\""], none⟩,
         ⟨"a", true, none, some "package apkg where"⟩] none).arrays ≠
      [("require", specRootRequiresRegistryOrder
        [⟨"b", true, some ["name = \"bpkg\""], none⟩,
         ⟨"a", true, none, some "package apkg where"⟩])] :=
  ⟨by decide, by decide, by decide⟩

/-- C1 (amended): the composed root manifest's `require` list consists of the
resolvable packages in ASCENDING SORTED order of the registry directory names
(`sorted(repo_names)` in the source), not registry order; it is a sorted list,
and it is deterministic — in particular independent of the order in which the
registry lists the names (shown here for reversal, given distinct names). -/
theorem C1_amended (repos : List RepoState) (existing : Option (List String)) :
    (create_root_lakefile repos existing).arrays =
      [("require",
        (sortStrings (repos.map fun r => r.name)).filterMap (resolveRequire repos))] ∧
    List.Sorted (fun a b => strLe a b = true) (sortStrings (repos.map fun r => r.name)) ∧
    ((repos.map fun r => r.name).Nodup →
      create_root_lakefile repos.reverse existing = create_root_lakefile repos existing) :=
  ⟨rfl, sortStrings_sorted _, fun h => create_root_reverse existing h⟩

/-- C1 witness: the amended claim applied to a two-repository world with
distinct names. -/
theorem C1_witness :
    create_root_lakefile
        ([⟨"b", true, none, none⟩, ⟨"a", true, none, none⟩] : List RepoState).reverse none =
      create_root_lakefile
        ([⟨"b", true, none, none⟩, ⟨"a", true, none, none⟩] : List RepoState) none :=
  (C1_amended [⟨"b", true, none, none⟩, ⟨"a", true, none, none⟩] none).2.2 (by decide)

/-- C2 is refuted at a concrete input: the Structured rewrite goes through
`toml.load`/`toml.dump`, so when any clause is localized the whole file is
re-serialized and a comment line is lost — the surrounding file is not
byte-identical even though the `other` clause itself is not a registry
member. -/
theorem C2_counterexample :
    "# important comment" ∈ ["# important comment", "name = \"p\"", "[[require]]",
      "name = \"dep\"", "git = \"https://x\"", "[[require]]", "name = \"other\"",
      "url = \"https://z\""] ∧
    (modify_toml_lakefile ["dep"]
      ["# important comment", "name = \"p\"", "[[require]]", "name = \"dep\"",
       "git = \"https://x\"", "[[require]]", "name = \"other\"",
       "url = \"https://z\""]).2 = true ∧
    "# important comment" ∉ (modify_toml_lakefile ["dep"]
      ["# important comment", "name = \"p\"", "[[require]]", "name = \"dep\"",
       "git = \"https://x\"", "[[require]]", "name = \"other\"",
       "url = \"https://z\""]).1 :=
  ⟨by decide, by decide, by decide⟩

/-- C2 (amended): for the TextBased dialect the claim holds as stated — the
rewritten text is the segment-wise render in which every matched clause whose
name is not a registry member is emitted byte-identically; for the Structured
dialect the preservation holds at the parsed-data level (a non-member entry is
returned fully unmodified, with no modification recorded), but not at the
byte level of the file (comments and formatting are lost on rewrite, per the
counterexample). -/
theorem C2_amended (reg : List String) (l : List Char) :
    subScan reg l = concatMap (segRender reg) (leanSegs l) ∧
    (∀ name text, Seg.clause name text ∈ leanSegs l → name.asString ∉ reg →
      segRender reg (.clause name text) = text) ∧
    (∀ e : Entry, (∀ n, getKV e "name" = some n → n ∉ reg) →
      transformEntry reg e = (e, false)) := by
  refine ⟨subScan_eq_segs reg l, ?_, fun e h => transformEntry_frame reg e h⟩
  intro name text _ hni
  simp [segRender, hni]

/-- C2 witness: a non-member TextBased clause renders to itself, and a
non-member Structured entry is untouched with no modification recorded. -/
theorem C2_witness :
    segRender ["dep"] (.clause "other".data "require other from git \"u\"".data) =
      "require other from git \"u\"".data ∧
    transformEntry ["dep"] [("name", "other"), ("url", "https://z")] =
      ([("name", "other"), ("url", "https://z")], false) :=
  ⟨(C2_amended ["dep"] "require other from git \"u\"".data).2.1
      "other".data "require other from git \"u\"".data (by decide) (by decide),
    (C2_amended ["dep"] []).2.2 [("name", "other"), ("url", "https://z")]
      (by
        intro n hn
        simp only [show getKV [("name", "other"), ("url", "https://z")] "name" =
          some "other" from by decide, Option.some.injEq] at hn
        subst hn
        decide)⟩

/-- C3 is refuted at concrete inputs, in both of its parts: (i) the
Structured strategy's modified determination does NOT compare serialized
output to original input — on an already-canonical manifest that carries a
comment it reports `false` while the serialized output differs from the
input (`specModifiedByTextComparison`, the spec's determination, says
`true`); (ii) TextBased rewriting is not idempotent for every manifest and
registry — with registry `["my dep", "my"]` the scoped clause
`require "org" / "my dep" @ git "https://u"` rewrites to a clause that a
second pass rewrites again. -/
theorem C3_counterexample :
    (modify_toml_lakefile ["dep"]
      ["# note", "name = \"p\"", "[[require]]", "name = \"dep\"",
       "path = \"../dep\""]).2 = false ∧
    specModifiedByTextComparison ["dep"]
      ["# note", "name = \"p\"", "[[require]]", "name = \"dep\"",
       "path = \"../dep\""] = true ∧
    subScan ["my dep", "my"] (subScan ["my dep", "my"]
        "require \"org\" / \"my dep\" @ git \"https://u\"".data) ≠
      subScan ["my dep", "my"] "require \"org\" / \"my dep\" @ git \"https://u\"".data :=
  ⟨by decide, by decide, by decide⟩

/-- C3 (amended): the Dependency Rewriter is idempotent for the Structured
dialect at file level — the second application reads back exactly what the
first wrote, records no modification and performs no write — although its
modified determination is per-entry change detection, not text comparison
(only the TextBased dialect compares output text to input text).  For the
TextBased dialect, a canonically rewritten clause of an identifier-named
registry member re-matches to exactly itself on a second pass, so a second
application maps each rewritten clause to itself; in particular a file that
is one canonical clause is a fixpoint with no modification reported.  (Full
TextBased file idempotence fails for registries containing non-identifier
names, per the counterexample.) -/
theorem C3_amended (reg : List String) (lines : List String) (n t : List Char)
    (hn : WfName n) (hmem : n.asString ∈ reg) :
    modify_toml_lakefile reg (modify_toml_lakefile reg lines).1 =
      ((modify_toml_lakefile reg lines).1, false) ∧
    subScan reg (replClause n ++ t) = replClause n ++ subScan reg t ∧
    modify_lean_lakefile reg (replClause n) = (replClause n, false) := by
  refine ⟨modify_toml_lakefile_idem reg lines, subScan_replClause reg n t hn hmem, ?_⟩
  have hfix : subScan reg (replClause n) = replClause n := by
    have := subScan_replClause reg n [] hn hmem
    rw [List.append_nil] at this
    rw [this]
    simp [subScan, subScanF]
  simp [modify_lean_lakefile, hfix]

/-- C3 witness: the amended claim applied to a concrete Structured manifest
(whose rewrite drops a remote field) and to the canonical clause of the
registry member `dep`. -/
theorem C3_witness :
    modify_toml_lakefile ["dep"]
        (modify_toml_lakefile ["dep"]
          ["name = \"p\"", "[[require]]", "name = \"dep\"",
           "git = \"https://x\""]).1 =
      ((modify_toml_lakefile ["dep"]
          ["name = \"p\"", "[[require]]", "name = \"dep\"",
           "git = \"https://x\""]).1, false) ∧
    subScan ["dep"] (replClause "dep".data ++ " -- tail".data) =
      replClause "dep".data ++ subScan ["dep"] " -- tail".data ∧
    modify_lean_lakefile ["dep"] (replClause "dep".data) = (replClause "dep".data, false) :=
  C3_amended ["dep"]
    ["name = \"p\"", "[[require]]", "name = \"dep\"", "git = \"https://x\""]
    "dep".data " -- tail".data ⟨by decide, by decide⟩ (by decide)

/-- C4: after rewriting, a registry member's RequirementClause holds no
remote-source field and its path is `../{name}`: in the Structured dialect
the transformed entry has none of `git`/`url`/`rev`/`version`/`scope` and its
`path` equals `../{name}`; in the TextBased dialect every matched clause of a
registry member renders to exactly the canonical local clause
`require {name} from "../{name}"`.  The spec's Scenario A is verified
concretely. -/
theorem C4_thm (reg : List String) :
    (∀ (e : Entry) (n : String), getKV e "name" = some n → n ∈ reg →
      getKV (transformEntry reg e).1 "git" = none ∧
      getKV (transformEntry reg e).1 "url" = none ∧
      getKV (transformEntry reg e).1 "rev" = none ∧
      getKV (transformEntry reg e).1 "version" = none ∧
      getKV (transformEntry reg e).1 "scope" = none ∧
      getKV (transformEntry reg e).1 "path" = some ("../" ++ n)) ∧
    (∀ (l : List Char) (name text : List Char),
      Seg.clause name text ∈ leanSegs l → name.asString ∈ reg →
      segRender reg (.clause name text) = replClause name) ∧
    transformEntry ["core"] [("name", "core"), ("git", "https://x"), ("rev", "abc123")] =
      ([("name", "core"), ("path", "../core")], true) := by
  refine ⟨?_, ?_, by decide⟩
  · intro e n hname hmem
    obtain ⟨h1, h2, h3, h4, h5, h6, _⟩ := transformEntry_member reg e n hname hmem
    exact ⟨h1, h2, h3, h4, h5, h6⟩
  · intro l name text _ hreg
    simp [segRender, hreg]

/-- C4 witness: localization of a concrete Structured entry and a concrete
TextBased clause. -/
theorem C4_witness :
    (getKV (transformEntry ["core"] [("name", "core"), ("git", "https://x")]).1 "git" = none ∧
      getKV (transformEntry ["core"] [("name", "core"), ("git", "https://x")]).1 "url" = none ∧
      getKV (transformEntry ["core"] [("name", "core"), ("git", "https://x")]).1 "rev" = none ∧
      getKV (transformEntry ["core"] [("name", "core"), ("git", "https://x")]).1
        "version" = none ∧
      getKV (transformEntry ["core"] [("name", "core"), ("git", "https://x")]).1
        "scope" = none ∧
      getKV (transformEntry ["core"] [("name", "core"), ("git", "https://x")]).1 "path" =
        some ("../" ++ "core")) ∧
    segRender ["std"] (.clause "std".data "require std @ git \"u\"".data) =
      replClause "std".data :=
  ⟨(C4_thm ["core"]).1 [("name", "core"), ("git", "https://x")] "core" (by decide) (by decide),
    (C4_thm ["std"]).2.1 "require std @ git \"u\"".data "std".data
      "require std @ git \"u\"".data (by decide) (by decide)⟩

/-- C5: the scoped TextBased clause `require "org" / "std" @ git "https://y"`
with `std` in the registry is replaced by exactly `require std from "../std"`
(the scoped form yields the unscoped segment as the identifier), and the
rewrite reports a modification. -/
theorem C5_thm :
    modify_lean_lakefile ["std"] "require \"org\" / \"std\" @ git \"https://y\"".data =
      ("require std from \"../std\"".data, true) := by decide

/-- C6: the Manifest Locator returns the Structured handle whenever
`lakefile.toml` exists (even if `lakefile.lean` also exists), the TextBased
handle when only `lakefile.lean` exists, and `none` when neither exists; a
`none` result makes the Orchestrator record a skip outcome, not an error. -/
theorem C6_thm (r : RepoState) :
    (∀ ls, r.tomlFile = some ls → find_lakefile r = some (.toml ls)) ∧
    (r.tomlFile = none → ∀ c, r.leanFile = some c → find_lakefile r = some (.lean c)) ∧
    (r.tomlFile = none → r.leanFile = none → find_lakefile r = none) ∧
    (∀ reg lakeRes, r.dirExists = true → find_lakefile r = none →
      processRepo reg lakeRes r = .noLakefile) := by
  obtain ⟨nm, d, tf, lf⟩ := r
  refine ⟨?_, ?_, ?_, ?_⟩
  · intro ls h
    simp only at h
    subst h
    rfl
  · intro h c h2
    simp only at h h2
    subst h
    subst h2
    rfl
  · intro h1 h2
    simp only at h1 h2
    subst h1
    subst h2
    rfl
  · intro reg lakeRes hd hnone
    simp only at hd
    subst hd
    simp [processRepo, hnone]

/-- C6 witness: with both files present the Structured handle wins, and a
repository with neither file is skipped. -/
theorem C6_witness :
    find_lakefile ⟨"p", true, some ["name = \"x\""], some "package x where"⟩ =
      some (.toml ["name = \"x\""]) ∧
    processRepo [] (.exited 0) ⟨"q", true, none, none⟩ = .noLakefile :=
  ⟨(C6_thm ⟨"p", true, some ["name = \"x\""], some "package x where"⟩).1
      ["name = \"x\""] rfl,
    (C6_thm ⟨"q", true, none, none⟩).2.2.2 [] (.exited 0) rfl rfl⟩

/-- C7: the Package Name Extractor is a total function (absence is returned
as `none`, never raised); for TextBased manifests it returns exactly the
identifier of the match of `package <identifier> where` at the LEFTMOST
position where the pattern matches (and `none` when no position matches), and
for Structured manifests it is the `name` field of the parsed data. -/
theorem C7_thm (c : String) (n : List Char) :
    (scanPackage c.data = some n ↔
      ∃ k, matchPackageAt (c.data.drop k) = some n ∧
        ∀ j < k, matchPackageAt (c.data.drop j) = none) ∧
    extract_package_name (.lean c) = (scanPackage c.data).map List.asString ∧
    (∀ ls, extract_package_name (.toml ls) =
      (tomlLoadLines ls).bind fun d => getKV d.scalars "name") :=
  ⟨scanPackage_first c.data n, rfl, fun _ => rfl⟩

/-- C7 witness: the first-match characterization applied at a concrete
TextBased manifest. -/
theorem C7_witness :
    scanPackage "import Lake\npackage myPkg where\n".data = some "myPkg".data :=
  ((C7_thm "import Lake\npackage myPkg where\n" "myPkg".data).1).mpr
    ⟨12, by decide, by decide⟩

/-- C8: recomposing the root manifest preserves the `name` and `version`
fields of an existing root manifest and recomputes the `require` list from
scratch (the `require` part is independent of the pre-existing root
manifest); without an existing root manifest the defaults are used. -/
theorem C8_thm (repos : List RepoState) :
    (∀ (lines : List String) (d : TomlDoc) (nm vr : String),
      tomlLoadLines lines = some d →
      getKV d.scalars "name" = some nm → getKV d.scalars "version" = some vr →
      (create_root_lakefile repos (some lines)).scalars =
        [("name", nm), ("version", vr)]) ∧
    (create_root_lakefile repos none).scalars =
      [("name", defaultRootName), ("version", defaultRootVersion)] ∧
    (∀ e₁ e₂ : Option (List String),
      (create_root_lakefile repos e₁).arrays = (create_root_lakefile repos e₂).arrays) := by
  refine ⟨?_, rfl, fun e₁ e₂ => rfl⟩
  intro lines d nm vr hload hn hv
  simp [create_root_lakefile, hload, hn, hv]

/-- C8 witness: a root manifest with `name = "foo"`, `version = "2.0"` keeps
both fields on recomposition. -/
theorem C8_witness :
    (create_root_lakefile [] (some ["name = \"foo\"", "version = \"2.0\""])).scalars =
      [("name", "foo"), ("version", "2.0")] :=
  (C8_thm []).1 ["name = \"foo\"", "version = \"2.0\""]
    ⟨[("name", "foo"), ("version", "2.0")], []⟩ "foo" "2.0"
    (by decide) (by decide) (by decide)

/-- C9: the Build Invoker maps every outcome of the external command to a
boolean — `true` exactly on exit code zero, `false` on non-zero exit, on
timeout and on any other exception (it is a total function, nothing
propagates) — the timeout passed to the subprocess call is 60 seconds, and
the Orchestrator's root composition is the same whatever every `lake update`
invocation returns: it always proceeds to the Root Manifest Composer and the
summary. -/
theorem C9_thm :
    (∀ r : CmdResult, run_lake_update r = true ↔ r = .exited 0) ∧
    lakeUpdateTimeoutSeconds = 60 ∧
    (∀ (repos : List RepoState) (existing : Option (List String))
        (lr₁ lr₂ : String → CmdResult) (rr₁ rr₂ : CmdResult),
      (main_run repos existing lr₁ rr₁).rootConfig =
        (main_run repos existing lr₂ rr₂).rootConfig) ∧
    (∀ (repos : List RepoState) (existing : Option (List String))
        (lr : String → CmdResult) (rr : CmdResult),
      (main_run repos existing lr rr).rootConfig =
        create_root_lakefile (repos.map (rewriteRepo (repos.map fun r => r.name)))
          existing) := by
  refine ⟨?_, rfl, fun _ _ _ _ _ _ => rfl, fun _ _ _ _ => rfl⟩
  intro r
  cases r with
  | exited code => simp [run_lake_update]
  | timedOut => simp [run_lake_update]
  | errored => simp [run_lake_update]

/-- C10: the source-clause suffix of the TextBased recognizer is optional — a
bare `require {identifier}` clause with no `@ git`, `from git` or
`from "<path>"` suffix is matched, and for a registry member it is rewritten
to `require {identifier} from "../{identifier}"`, with a modification
reported. -/
theorem C10_thm (n : String) (reg : List String)
    (h1 : n.data ≠ []) (h2 : ∀ c ∈ n.data, isIdentChar c = true) (h3 : n ∈ reg) :
    tryMatch ("require ".data ++ n.data) = some (n.data, []) ∧
    modify_lean_lakefile reg ("require ".data ++ n.data) = (replClause n.data, true) := by
  have hw : WfName n.data := ⟨h1, h2⟩
  have hmem : (n.data).asString ∈ reg := by
    rw [asString_data]
    exact h3
  have hsub := subScan_bare reg n.data hw hmem
  refine ⟨tryMatch_bare n.data hw, ?_⟩
  have hne : replClause n.data ≠ "require ".data ++ n.data := by
    intro he
    have hlen := congrArg List.length he
    simp [replClause] at hlen
  show (subScan reg ("require ".data ++ n.data),
      decide (subScan reg ("require ".data ++ n.data) ≠ "require ".data ++ n.data)) =
    (replClause n.data, true)
  rw [hsub, decide_eq_true hne]

/-- C10 witness: the bare clause `require foo` with `foo` in the registry. -/
theorem C10_witness :
    tryMatch ("require ".data ++ "foo".data) = some ("foo".data, []) ∧
    modify_lean_lakefile ["foo"] ("require ".data ++ "foo".data) =
      (replClause "foo".data, true) :=
  C10_thm "foo" ["foo"] (by decide) (by decide) (by decide)

end Crucible
